import Mathlib

/-!
# Verification of the VariousDBSCAN progressive clustering core

A shallow embedding of `variousDBSCAN.py` (class `VariousDBSCAN`), which
performs progressive multi-density DBSCAN clustering:

* the cluster tree (`anytree` nodes carrying `clustered_points`) is embedded
  as an arena `List NodeRec`: index `0` is the root; a node stores its
  `points` (the `clustered_points` list), its `parent` index and its `depth`.
  `anytree` computes `depth` as the length of the parent chain; since the
  tree structure is never mutated after a node is attached, we record the
  depth (`parent.depth + 1`) at creation time, which is the same value.
* the external DBSCAN primitive is a black box.  The code always invokes it
  on the sub-matrix of the fixed distance matrix induced by a list of point
  indices, so for a fixed matrix the composite "build sub-matrix, run DBSCAN,
  read labels" is a function of the index list and the radius.  We model it
  as `prim : List ℕ → ℚ → List ℤ`, returning one label per input position
  (`-1` is the noise sentinel, as in sklearn).
* Python `float` radii are modelled as `ℚ`; halving is exact in both.
* `clustered_points` flows through Python `set` operations at every
  mutation; the iteration order of a CPython `set` of small ints is
  implementation defined.  We keep the list representation (so `len` is
  faithful) and use the position-ascending order for the lists the code
  builds out of sets; no claim depends on the order inside one cluster.
* `max_depth` defaults to `np.inf`; we model it as `Option ℕ`
  (`none` = infinity) with the code's `depth >= max_depth` test.
* the `while True` loop of `fit` can genuinely diverge (the spec says so),
  so the loop is written with explicit fuel, returning `none` when the fuel
  runs out; theorems about terminating runs quantify over the fuel and the
  termination theorem shows fuel `k` suffices when `max_depth = k`.
-/

/-- One primitive invocation, as recorded by `run_dbscan_on_node`:
the index list handed to DBSCAN, the radius, and the parent node index.
This is a ghost log (observable in Python as the calls to `dbscan.fit`);
the code itself only keeps the counter `dbscan_performed`. -/
structure CallRec where
  points_idx : List ℕ
  eps : ℚ
  parent : ℕ
  deriving Repr, DecidableEq

/-- One `anytree` node: `points` is `clustered_points`, `parent` is the
index of the parent node in the arena (`none` for the root). -/
structure NodeRec where
  points : List ℕ
  parent : Option ℕ
  depth : ℕ
  deriving Repr, DecidableEq

/-- Placeholder node used with `List.getD` for out-of-range accesses. -/
def dummyNode : NodeRec := { points := [], parent := none, depth := 0 }

/-- The mutable state of a `VariousDBSCAN` instance: the tree
(`progressive_clustering`), the invocation counter `dbscan_performed`,
and the ghost log of primitive invocations. -/
structure VState where
  arena : List NodeRec
  dbscan_performed : ℕ
  calls : List CallRec
  deriving Repr, DecidableEq

/-- `self.progressive_clustering = Node('', clustered_points=[])`:
a fresh instance holds exactly the root node and a zero counter. -/
def initState : VState :=
  { arena := [{ points := [], parent := none, depth := 0 }],
    dbscan_performed := 0, calls := [] }

/-- Points list of node `i` (empty for an out-of-range index). -/
def pts (ar : List NodeRec) (i : ℕ) : List ℕ := (ar.getD i dummyNode).points

/-- Depth of node `i` (0 for an out-of-range index). -/
def depthOf (ar : List NodeRec) (i : ℕ) : ℕ := (ar.getD i dummyNode).depth

/-- Parent pointer of node `i`. -/
def parentOf (ar : List NodeRec) (i : ℕ) : Option ℕ :=
  (ar.getD i dummyNode).parent

/-- Fuelled walk up the parent chain; in a well-formed arena parent indices
strictly decrease, so fuel `i` always suffices for node `i`. -/
def ancIdx (ar : List NodeRec) : ℕ → ℕ → List ℕ
  | 0, _ => []
  | fuel + 1, i =>
    if i < ar.length then
      match (ar.getD i dummyNode).parent with
      | none => []
      | some p => p :: ancIdx ar fuel p
    else []

/-- The strict ancestors of node `i`, nearest parent first, ending at the
root — `anytree`'s `node.anchestors` up to order, which the code only
iterates to subtract from every element. -/
def ancList (ar : List NodeRec) (i : ℕ) : List ℕ := ancIdx ar i i

/-- `max(dbscan.labels_)` over the returned labels.  All labels are `≥ -1`
under the primitive contract, so the fold from `-1` returns the maximum for
every non-empty label list.  (On an empty subset the Python code would
raise inside sklearn; no node produced by a run on a non-empty data set has
an empty `clustered_points` before overlap resolution, so this is
unreachable in a completed run.) -/
def maxLabel (labels : List ℤ) : ℤ := labels.foldl max (-1)

/-- `original_idx = [points_idx[k] for k in local_idx]` where
`local_idx = set(np.where(dbscan.labels_ == cluster_i)[0])`: the original
(un-remapped) indices whose local label equals `c`, in position order. -/
def originalIdx (points_idx : List ℕ) (labels : List ℤ) (c : ℤ) : List ℕ :=
  ((List.range labels.length).filter (fun k => labels.getD k (-1) == c)).map
    (fun k => points_idx.getD k 0)

/-- The children created by one primitive invocation: one node for each
`cluster_i in range(max(labels_) + 1)`, holding the matching original
indices, attached under `parent`. -/
def newChildren (ar : List NodeRec) (points_idx : List ℕ) (labels : List ℤ)
    (parent : ℕ) : List NodeRec :=
  (List.range (maxLabel labels + 1).toNat).map
    (fun c : ℕ =>
      { points := originalIdx points_idx labels (Int.ofNat c),
        parent := some parent,
        depth := depthOf ar parent + 1 })

/-- `run_dbscan_on_node(points_idx, new_eps, parent_node)`: invoke the
primitive on the sub-matrix induced by `points_idx`, bump the counter, and
attach one child per found cluster label under `parent`. -/
def run_dbscan_on_node (prim : List ℕ → ℚ → List ℤ) (points_idx : List ℕ)
    (new_eps : ℚ) (parent : ℕ) (st : VState) : VState :=
  { arena := st.arena ++ newChildren st.arena points_idx (prim points_idx new_eps) parent,
    dbscan_performed := st.dbscan_performed + 1,
    calls := st.calls ++ [{ points_idx := points_idx, eps := new_eps, parent := parent }] }

/-- `parent_node.clustered_points =
list(set(parent_node.clustered_points).difference(child_node.clustered_points))`
applied to every ancestor of node `i`: each ancestor keeps, in order, its
points that are not among node `i`'s current points. -/
def subtractFromAncestors (ar : List NodeRec) (i : ℕ) : List NodeRec :=
  (List.range ar.length).map
    (fun j =>
      let nd := ar.getD j dummyNode
      if j ∈ ancList ar i then
        { nd with points := nd.points.filter (fun x => decide (x ∉ pts ar i)) }
      else nd)

/-- Processing a list of nodes in order, each subtracting its current
points from all of its ancestors. -/
def resolve (ar : List NodeRec) (order : List ℕ) : List NodeRec :=
  order.foldl subtractFromAncestors ar

/-- Insert `x` into a list already sorted by non-increasing `key`, before
the first element whose key is `≤ key x` — together with `sortByDesc` this
is a stable sort by decreasing key, as Python's `sorted` with a negated
key is. -/
def insertByDesc (key : ℕ → ℕ) (x : ℕ) : List ℕ → List ℕ
  | [] => [x]
  | y :: tl => if key y ≤ key x then x :: y :: tl else y :: insertByDesc key x tl

/-- Stable sort by non-increasing `key`. -/
def sortByDesc (key : ℕ → ℕ) (l : List ℕ) : List ℕ :=
  l.foldr (insertByDesc key) []

/-- All non-root nodes.  `anytree`'s `root.descendants` enumerates them in
pre-order; we enumerate them in arena (creation) order.  Both uses in the
source immediately re-sort the list with a stable sort by decreasing
depth, and on every state `fit` reaches the two base orders agree inside
each depth level (nodes of one level are appended parent-by-parent with
the parents taken in order), so the sorted lists coincide. -/
def nonRootIndices (ar : List NodeRec) : List ℕ :=
  (List.range ar.length).filter (fun i => i != 0)

/-- `sorted(self.progressive_clustering.descendants, key=lambda x: -x.depth)`. -/
def descendantsByDepth (ar : List NodeRec) : List ℕ :=
  sortByDesc (depthOf ar) (nonRootIndices ar)

/-- `remove_child_cluster_points_from_parents`: visit all non-root nodes,
deepest first, and subtract each node's current points from every one of
its ancestors. -/
def remove_child_cluster_points_from_parents (ar : List NodeRec) : List NodeRec :=
  resolve ar (descendantsByDepth ar)

/-- Lines 110–112 of `fit`: enumerate the non-root nodes sorted by
decreasing depth (the key `-(depth + 1)` orders exactly like `-depth`) and
keep the `clustered_points` of those with at least `min_points` points. -/
def extractClusters (ar : List NodeRec) (min_points : ℕ) : List (List ℕ) :=
  ((descendantsByDepth ar).filter (fun i => min_points ≤ (pts ar i).length)).map
    (fun i => pts ar i)

/-- `if depth >= max_depth` with `max_depth : Option ℕ`
(`none` = `np.inf`, the default, which the test never reaches). -/
def depthReached (max_depth : Option ℕ) (depth : ℕ) : Bool :=
  match max_depth with
  | none => false
  | some k => k ≤ depth

/-- The nodes the loop re-Clusters at the current depth:
`[node for node in self.progressive_clustering.descendants if node.depth == depth]`. -/
def nodesAtDepth (ar : List NodeRec) (depth : ℕ) : List ℕ :=
  (nonRootIndices ar).filter (fun i => depthOf ar i == depth)

/-- The `while True` loop of `fit` (lines 97–108), with explicit fuel:
break when `depth >= max_depth` or no node exists at the current depth;
otherwise advance the radius with `update_epsilon_func` and run the
primitive on every node of the current depth. -/
def fitLoop (prim : List ℕ → ℚ → List ℤ) (upd : ℚ → ℚ) (max_depth : Option ℕ) :
    ℕ → ℕ → ℚ → VState → Option VState
  | 0, depth, _, st =>
    if depthReached max_depth depth then some st
    else if (nodesAtDepth st.arena depth).isEmpty then some st
    else none
  | fuel + 1, depth, eps, st =>
    if depthReached max_depth depth then some st
    else
      let nxt := nodesAtDepth st.arena depth
      if nxt.isEmpty then some st
      else
        let eps' := upd eps
        let st' := nxt.foldl
          (fun s i => run_dbscan_on_node prim (pts s.arena i) eps' i s) st
        fitLoop prim upd max_depth fuel (depth + 1) eps' st'

/-- `fit(max_depth)` run from an arbitrary instance state `st` (the method
reads and extends whatever tree and counter the instance carries): the
initial primitive invocation on the whole data set under the root, the
depth loop, overlap resolution, and extraction.  Returns the final
instance state and the returned cluster list, or `none` if the fuel is
exhausted before the loop breaks. -/
def fitFrom (prim : List ℕ → ℚ → List ℤ) (upd : ℚ → ℚ) (max_depth : Option ℕ)
    (fuel : ℕ) (n_points : ℕ) (epsilon : ℚ) (min_points : ℕ) (st : VState) :
    Option (VState × List (List ℕ)) :=
  let st1 := run_dbscan_on_node prim (List.range n_points) epsilon 0 st
  (fitLoop prim upd max_depth fuel 1 epsilon st1).map
    (fun st2 =>
      let ar := remove_child_cluster_points_from_parents st2.arena
      ({ st2 with arena := ar }, extractClusters ar min_points))

/-- `fit` on a freshly constructed instance. -/
def fitFresh (prim : List ℕ → ℚ → List ℤ) (upd : ℚ → ℚ) (max_depth : Option ℕ)
    (fuel : ℕ) (n_points : ℕ) (epsilon : ℚ) (min_points : ℕ) :
    Option (VState × List (List ℕ)) :=
  fitFrom prim upd max_depth fuel n_points epsilon min_points initState

/-- The default radius update `lambda x: x / 2`. -/
def defaultUpdate (x : ℚ) : ℚ := x / 2

/-- Constructor validation (line 27):
`assert isinstance(min_points, int) and min_points > 0`.  The dynamic
argument is modelled as a rational; `isinstance(min_points, int)`
becomes `den = 1`.  Validation happens before any clustering work, so a
successful construction is exactly the fresh state. -/
def mkVariousDBSCAN (min_points : ℚ) : Except String VState :=
  if min_points.den = 1 ∧ 0 < min_points then Except.ok initState
  else Except.error "InvalidParameter"

/-- The contract of section 6 of the spec for the primitive, phrased on the
composite wrapper input: one label per input position, each label either
the noise sentinel `-1` or a non-negative cluster id, and the non-negative
ids used form a prefix `0..k-1` (every id up to the maximum occurs). -/
def PrimContract (prim : List ℕ → ℚ → List ℤ) : Prop :=
  ∀ l e, (prim l e).length = l.length ∧
    (∀ c ∈ prim l e, c = -1 ∨ 0 ≤ c) ∧
    (∀ c : ℤ, 0 ≤ c → c ≤ maxLabel (prim l e) → c ∈ prim l e)

/-- Structural well-formedness of an arena, true of every tree the code
builds: node `0` is the root (no parent, depth 0), every other node points
to an earlier node and carries depth `parent.depth + 1`. -/
def WFA (ar : List NodeRec) : Prop :=
  0 < ar.length ∧
  ∀ i < ar.length,
    (((ar.getD i dummyNode).parent = none ∧ i = 0 ∧ (ar.getD i dummyNode).depth = 0) ∨
     ((ar.getD i dummyNode).parent = some ((ar.getD i dummyNode).parent.getD 0) ∧ i ≠ 0 ∧
       (ar.getD i dummyNode).parent.getD 0 < i ∧
       (ar.getD i dummyNode).depth =
         (ar.getD ((ar.getD i dummyNode).parent.getD 0) dummyNode).depth + 1))

/-- Node `p` has no children. -/
def childless (ar : List NodeRec) (p : ℕ) : Prop :=
  ∀ j < ar.length, (ar.getD j dummyNode).parent ≠ some p

/-- Any two nodes neither of which is an ancestor of the other have
disjoint points — the construction invariant behind result disjointness. -/
def IncompDisj (ar : List NodeRec) : Prop :=
  ∀ i < ar.length, ∀ j < ar.length, i ≠ j →
    i ∉ ancList ar j → j ∉ ancList ar i →
    ∀ x ∈ pts ar i, x ∉ pts ar j

/-- The pre-resolution nesting invariant: every node's points contain all
points of each of its descendants. -/
def NestedPts (ar : List NodeRec) : Prop :=
  ∀ i < ar.length, ∀ j ∈ ancList ar i, ∀ x ∈ pts ar i, x ∈ pts ar j

/-- `order` enumerates exactly the non-root nodes (in any order, possibly
with repetitions). -/
def CompleteOrder (ar : List NodeRec) (order : List ℕ) : Prop :=
  (∀ i ∈ order, i ≠ 0 ∧ i < ar.length) ∧
  (∀ i < ar.length, i ≠ 0 → i ∈ order)

/-- `x` is removed from node `n` by some node of `order`: a node `d` whose
ancestors include `n` and whose original points contain `x`. -/
def subtractedB (ar : List NodeRec) (order : List ℕ) (n : ℕ) (x : ℕ) : Bool :=
  order.any (fun d => decide (n ∈ ancList ar d) && decide (x ∈ pts ar d))

/-- Closed form for the points of node `n` after the resolution pass. -/
def residualPoints (ar : List NodeRec) (order : List ℕ) (n : ℕ) : List ℕ :=
  (pts ar n).filter (fun x => !subtractedB ar order n x)

/-! ## Basic access lemmas -/

theorem getD_map_range {α : Type} (f : ℕ → α) (n j : ℕ) (d : α) (hj : j < n) :
    ((List.range n).map f).getD j d = f j := by
  rw [List.getD_eq_getElem?_getD]
  simp [List.getElem?_map, List.getElem?_range, hj]

theorem getD_append_left {α : Type} (l l' : List α) (j : ℕ) (d : α) (hj : j < l.length) :
    (l ++ l').getD j d = l.getD j d := by
  rw [List.getD_eq_getElem?_getD, List.getD_eq_getElem?_getD, List.getElem?_append]
  simp [hj]

theorem getD_append_right {α : Type} (l l' : List α) (j : ℕ) (d : α) (hj : l.length ≤ j) :
    (l ++ l').getD j d = l'.getD (j - l.length) d := by
  rw [List.getD_eq_getElem?_getD, List.getD_eq_getElem?_getD,
    List.getElem?_append_right hj]

theorem mem_nonRootIndices {ar : List NodeRec} {i : ℕ} :
    i ∈ nonRootIndices ar ↔ i ≠ 0 ∧ i < ar.length := by
  simp [nonRootIndices, List.mem_filter, and_comm]

theorem nodup_nonRootIndices (ar : List NodeRec) : (nonRootIndices ar).Nodup :=
  (List.nodup_range _).filter _

/-! ## `subtractFromAncestors`: pointwise characterization and
structure preservation -/

theorem length_subtractFromAncestors (ar : List NodeRec) (i : ℕ) :
    (subtractFromAncestors ar i).length = ar.length := by
  simp [subtractFromAncestors]

theorem getD_subtractFromAncestors (ar : List NodeRec) (i j : ℕ) (hj : j < ar.length) :
    (subtractFromAncestors ar i).getD j dummyNode =
      (if j ∈ ancList ar i then
        { ar.getD j dummyNode with
          points := (ar.getD j dummyNode).points.filter (fun x => decide (x ∉ pts ar i)) }
       else ar.getD j dummyNode) := by
  rw [subtractFromAncestors, getD_map_range _ _ _ _ hj]

theorem pts_subtractFromAncestors (ar : List NodeRec) (i j : ℕ) :
    pts (subtractFromAncestors ar i) j =
      (if j ∈ ancList ar i then
        (pts ar j).filter (fun x => decide (x ∉ pts ar i))
       else pts ar j) := by
  by_cases hj : j < ar.length
  · rw [pts, getD_subtractFromAncestors ar i j hj]
    by_cases hm : j ∈ ancList ar i <;> simp [hm, pts]
  · have h1 : ar.getD j dummyNode = dummyNode :=
      List.getD_eq_default _ _ (by omega)
    have h2 : (subtractFromAncestors ar i).getD j dummyNode = dummyNode :=
      List.getD_eq_default _ _ (by rw [length_subtractFromAncestors]; omega)
    simp only [pts, h1, h2]
    by_cases hm : j ∈ ancList ar i <;> simp [hm, dummyNode]

theorem parentOf_subtractFromAncestors (ar : List NodeRec) (i j : ℕ) :
    parentOf (subtractFromAncestors ar i) j = parentOf ar j := by
  by_cases hj : j < ar.length
  · rw [parentOf, parentOf, getD_subtractFromAncestors ar i j hj]
    by_cases hm : j ∈ ancList ar i <;> simp [hm]
  · have h1 : ar.getD j dummyNode = dummyNode :=
      List.getD_eq_default _ _ (by omega)
    have h2 : (subtractFromAncestors ar i).getD j dummyNode = dummyNode :=
      List.getD_eq_default _ _ (by rw [length_subtractFromAncestors]; omega)
    rw [parentOf, parentOf, h1, h2]

theorem depthOf_subtractFromAncestors (ar : List NodeRec) (i j : ℕ) :
    depthOf (subtractFromAncestors ar i) j = depthOf ar j := by
  by_cases hj : j < ar.length
  · rw [depthOf, depthOf, getD_subtractFromAncestors ar i j hj]
    by_cases hm : j ∈ ancList ar i <;> simp [hm]
  · have h1 : ar.getD j dummyNode = dummyNode :=
      List.getD_eq_default _ _ (by omega)
    have h2 : (subtractFromAncestors ar i).getD j dummyNode = dummyNode :=
      List.getD_eq_default _ _ (by rw [length_subtractFromAncestors]; omega)
    rw [depthOf, depthOf, h1, h2]

theorem ancIdx_congr (ar ar' : List NodeRec) (hlen : ar.length = ar'.length)
    (hpar : ∀ j < ar.length, parentOf ar j = parentOf ar' j) :
    ∀ f i, ancIdx ar f i = ancIdx ar' f i := by
  intro f
  induction f with
  | zero => intro i; rfl
  | succ f ih =>
    intro i
    show ancIdx ar (f + 1) i = ancIdx ar' (f + 1) i
    rw [ancIdx, ancIdx, ← hlen]
    by_cases hi : i < ar.length
    · have := hpar i hi
      rw [parentOf, parentOf] at this
      simp only [hi, if_true, ← this]
      cases hp : (ar.getD i dummyNode).parent with
      | none => rfl
      | some p => simp [ih p]
    · simp [hi]

theorem ancList_congr (ar ar' : List NodeRec) (hlen : ar.length = ar'.length)
    (hpar : ∀ j < ar.length, parentOf ar j = parentOf ar' j) (i : ℕ) :
    ancList ar i = ancList ar' i :=
  ancIdx_congr ar ar' hlen hpar i i

theorem ancList_subtractFromAncestors (ar : List NodeRec) (i j : ℕ) :
    ancList (subtractFromAncestors ar i) j = ancList ar j :=
  (ancList_congr ar (subtractFromAncestors ar i)
    (length_subtractFromAncestors ar i).symm
    (fun k _ => (parentOf_subtractFromAncestors ar i k).symm) j).symm

/-! ## Structure preservation through a whole `resolve` pass -/

theorem length_resolve (ar : List NodeRec) (order : List ℕ) :
    (resolve ar order).length = ar.length := by
  induction order using List.reverseRecOn with
  | nil => rfl
  | append_singleton o i ih =>
    rw [resolve, List.foldl_concat, ← resolve, length_subtractFromAncestors, ih]

theorem parentOf_resolve (ar : List NodeRec) (order : List ℕ) (j : ℕ) :
    parentOf (resolve ar order) j = parentOf ar j := by
  induction order using List.reverseRecOn with
  | nil => rfl
  | append_singleton o i ih =>
    rw [resolve, List.foldl_concat, ← resolve, parentOf_subtractFromAncestors, ih]

theorem depthOf_resolve (ar : List NodeRec) (order : List ℕ) (j : ℕ) :
    depthOf (resolve ar order) j = depthOf ar j := by
  induction order using List.reverseRecOn with
  | nil => rfl
  | append_singleton o i ih =>
    rw [resolve, List.foldl_concat, ← resolve, depthOf_subtractFromAncestors, ih]

theorem ancList_resolve (ar : List NodeRec) (order : List ℕ) (j : ℕ) :
    ancList (resolve ar order) j = ancList ar j :=
  (ancList_congr ar (resolve ar order) (length_resolve ar order).symm
    (fun k _ => (parentOf_resolve ar order k).symm) j).symm

/-! ## Ancestor chains in a well-formed arena -/

theorem WFA.parent_lt {ar : List NodeRec} (h : WFA ar) {i p : ℕ}
    (hi : i < ar.length) (hp : parentOf ar i = some p) : p < i := by
  rcases (h.2 i hi) with ⟨hnone, _, _⟩ | ⟨hsome, _, hlt, _⟩
  · rw [parentOf, hnone] at hp; exact absurd hp (by simp)
  · rw [parentOf, hsome] at hp
    rw [Option.some_inj] at hp
    omega

theorem WFA.depth_parent {ar : List NodeRec} (h : WFA ar) {i p : ℕ}
    (hi : i < ar.length) (hp : parentOf ar i = some p) :
    depthOf ar i = depthOf ar p + 1 := by
  rcases (h.2 i hi) with ⟨hnone, _, _⟩ | ⟨hsome, _, _, hd⟩
  · rw [parentOf, hnone] at hp; exact absurd hp (by simp)
  · rw [parentOf, hsome] at hp
    rw [Option.some_inj] at hp
    rw [depthOf, depthOf, ← hp] at *
    exact hd

theorem WFA.root_of_parent_none {ar : List NodeRec} (h : WFA ar) {i : ℕ}
    (hi : i < ar.length) (hp : parentOf ar i = none) : i = 0 := by
  rcases (h.2 i hi) with ⟨_, h0, _⟩ | ⟨hsome, _, _, _⟩
  · exact h0
  · rw [parentOf, hsome] at hp; exact absurd hp (by simp)

theorem WFA.parent_of_nonroot {ar : List NodeRec} (h : WFA ar) {i : ℕ}
    (hi : i < ar.length) (hne : i ≠ 0) : ∃ p, parentOf ar i = some p ∧ p < i := by
  rcases (h.2 i hi) with ⟨_, h0, _⟩ | ⟨hsome, _, hlt, _⟩
  · exact absurd h0 hne
  · exact ⟨_, hsome, hlt⟩

theorem ancIdx_zero_fuel (ar : List NodeRec) (i : ℕ) : ancIdx ar 0 i = [] := rfl

theorem ancIdx_succ (ar : List NodeRec) (fuel i : ℕ) :
    ancIdx ar (fuel + 1) i =
      (if i < ar.length then
        match (ar.getD i dummyNode).parent with
        | none => []
        | some p => p :: ancIdx ar fuel p
       else []) := rfl

theorem ancIdx_succ_invalid (ar : List NodeRec) (fuel i : ℕ) (hi : ¬ i < ar.length) :
    ancIdx ar (fuel + 1) i = [] := by
  rw [ancIdx_succ]; simp [hi]

theorem ancIdx_succ_none (ar : List NodeRec) (fuel i : ℕ) (hi : i < ar.length)
    (hp : parentOf ar i = none) : ancIdx ar (fuel + 1) i = [] := by
  rw [parentOf, List.getD_eq_getElem ar dummyNode hi] at hp
  rw [ancIdx_succ]; simp [hi, hp]

theorem ancIdx_succ_some (ar : List NodeRec) (fuel i p : ℕ) (hi : i < ar.length)
    (hp : parentOf ar i = some p) : ancIdx ar (fuel + 1) i = p :: ancIdx ar fuel p := by
  rw [parentOf, List.getD_eq_getElem ar dummyNode hi] at hp
  rw [ancIdx_succ]; simp [hi, hp]

/-- With a well-formed arena, any fuel `≥ i` computes the full chain. -/
theorem ancIdx_fuel_ge (ar : List NodeRec) (h : WFA ar) :
    ∀ i fuel, i ≤ fuel → ancIdx ar fuel i = ancList ar i := by
  intro i
  induction i using Nat.strong_induction_on with
  | _ i ih =>
    intro fuel hfuel
    by_cases hi : i < ar.length
    · cases hp : parentOf ar i with
      | none =>
        match i, fuel with
        | 0, 0 => rfl
        | 0, fuel + 1 => rw [ancList, ancIdx_zero_fuel, ancIdx_succ_none ar fuel 0 hi hp]
        | i + 1, fuel + 1 =>
          rw [ancList, ancIdx_succ_none ar fuel (i + 1) hi hp,
            ancIdx_succ_none ar i (i + 1) hi hp]
      | some p =>
        have hplt : p < i := h.parent_lt hi hp
        match i, hplt, hfuel with
        | i + 1, _, _ =>
          have hf2 : fuel = (fuel - 1) + 1 := by omega
          rw [hf2, ancList, ancIdx_succ_some ar (fuel - 1) (i + 1) p hi hp,
            ancIdx_succ_some ar i (i + 1) p hi hp,
            ih p (by omega) (fuel - 1) (by omega), ih p (by omega) i (by omega)]
    · cases i with
      | zero => cases fuel with
        | zero => rfl
        | succ fuel => rw [ancList, ancIdx_zero_fuel, ancIdx_succ_invalid ar fuel 0 hi]
      | succ i =>
        have hf2 : fuel = (fuel - 1) + 1 := by omega
        rw [hf2, ancList, ancIdx_succ_invalid ar (fuel - 1) (i + 1) hi,
          ancIdx_succ_invalid ar i (i + 1) hi]

theorem ancList_unfold {ar : List NodeRec} (h : WFA ar) {i p : ℕ}
    (hi : i < ar.length) (hp : parentOf ar i = some p) :
    ancList ar i = p :: ancList ar p := by
  have hplt : p < i := h.parent_lt hi hp
  have hi2 : i = (i - 1) + 1 := by omega
  rw [ancList, hi2, ancIdx_succ_some ar (i - 1) ((i - 1) + 1) p (hi2 ▸ hi) (hi2 ▸ hp),
    ancIdx_fuel_ge ar h p (i - 1) (by omega)]

theorem ancList_of_invalid {ar : List NodeRec} {i : ℕ} (hi : ¬ i < ar.length) :
    ancList ar i = [] := by
  cases i with
  | zero => rfl
  | succ i => rw [ancList, ancIdx_succ]; simp [hi]

theorem ancList_root {ar : List NodeRec} : ancList ar 0 = [] := rfl

theorem mem_ancList_lt {ar : List NodeRec} (h : WFA ar) :
    ∀ i j, j ∈ ancList ar i → j < i ∧ i < ar.length := by
  intro i
  induction i using Nat.strong_induction_on with
  | _ i ih =>
    intro j hj
    by_cases hi : i < ar.length
    · by_cases h0 : i = 0
      · subst h0; rw [ancList_root] at hj; exact absurd hj (by simp)
      · obtain ⟨p, hp, hplt⟩ := h.parent_of_nonroot hi h0
        rw [ancList_unfold h hi hp] at hj
        rcases List.mem_cons.mp hj with rfl | hj
        · exact ⟨hplt, hi⟩
        · have := ih p hplt j hj
          exact ⟨by omega, hi⟩
    · rw [ancList_of_invalid hi] at hj
      exact absurd hj (by simp)

/-- Transitivity of the ancestor relation. -/
theorem ancList_trans {ar : List NodeRec} (h : WFA ar) :
    ∀ d i n, i ∈ ancList ar d → n ∈ ancList ar i → n ∈ ancList ar d := by
  intro d
  induction d using Nat.strong_induction_on with
  | _ d ih =>
    intro i n hi hn
    have ⟨hid, hd⟩ := mem_ancList_lt h d i hi
    by_cases h0 : d = 0
    · subst h0; rw [ancList_root] at hi; exact absurd hi (by simp)
    · obtain ⟨p, hp, hplt⟩ := h.parent_of_nonroot hd h0
      rw [ancList_unfold h hd hp] at hi ⊢
      rcases List.mem_cons.mp hi with rfl | hi
      · exact List.mem_cons_of_mem _ hn
      · exact List.mem_cons_of_mem _ (ih p hplt i n hi hn)

/-- Every strict ancestor is reached through a node whose parent it is. -/
theorem ancList_chain {ar : List NodeRec} (h : WFA ar) :
    ∀ i p, p ∈ ancList ar i →
      ∃ c, (c = i ∨ c ∈ ancList ar i) ∧ parentOf ar c = some p ∧ c < ar.length := by
  intro i
  induction i using Nat.strong_induction_on with
  | _ i ih =>
    intro p hp
    have ⟨hpi, hi⟩ := mem_ancList_lt h i p hp
    by_cases h0 : i = 0
    · subst h0; rw [ancList_root] at hp; exact absurd hp (by simp)
    · obtain ⟨q, hq, hqlt⟩ := h.parent_of_nonroot hi h0
      rw [ancList_unfold h hi hq] at hp
      rcases List.mem_cons.mp hp with rfl | hp
      · exact ⟨i, Or.inl rfl, hq, hi⟩
      · obtain ⟨c, hc, hcp, hcl⟩ := ih q hqlt p hp
        refine ⟨c, Or.inr ?_, hcp, hcl⟩
        rw [ancList_unfold h hi hq]
        rcases hc with rfl | hc
        · exact List.mem_cons_self _ _
        · exact List.mem_cons_of_mem _ hc

/-- Depth strictly decreases along the ancestor chain. -/
theorem depth_lt_of_mem_ancList {ar : List NodeRec} (h : WFA ar) :
    ∀ i j, j ∈ ancList ar i → depthOf ar j < depthOf ar i := by
  intro i
  induction i using Nat.strong_induction_on with
  | _ i ih =>
    intro j hj
    have ⟨hji, hi⟩ := mem_ancList_lt h i j hj
    by_cases h0 : i = 0
    · subst h0; rw [ancList_root] at hj; exact absurd hj (by simp)
    · obtain ⟨p, hp, hplt⟩ := h.parent_of_nonroot hi h0
      have hd := h.depth_parent hi hp
      rw [ancList_unfold h hi hp] at hj
      rcases List.mem_cons.mp hj with rfl | hj
      · omega
      · have := ih p hplt j hj
        omega

theorem not_self_mem_ancList {ar : List NodeRec} (h : WFA ar) (i : ℕ) :
    i ∉ ancList ar i := by
  intro hmem
  have := (mem_ancList_lt h i i hmem).1
  omega

/-! ## The overlap-resolution pass: closed form and order independence -/

/-- Propositional version of `subtractedB`. -/
def Subtracted (ar : List NodeRec) (order : List ℕ) (n x : ℕ) : Prop :=
  ∃ d ∈ order, n ∈ ancList ar d ∧ x ∈ pts ar d

theorem subtractedB_iff {ar : List NodeRec} {order : List ℕ} {n x : ℕ} :
    subtractedB ar order n x = true ↔ Subtracted ar order n x := by
  simp [subtractedB, Subtracted, List.any_eq_true]

theorem mem_residualPoints {ar : List NodeRec} {order : List ℕ} {n x : ℕ} :
    x ∈ residualPoints ar order n ↔ x ∈ pts ar n ∧ ¬ Subtracted ar order n x := by
  rw [residualPoints, List.mem_filter, Bool.not_eq_eq_eq_not, Bool.not_true,
    ← Bool.not_eq_true, subtractedB_iff]

theorem residualPoints_nil (ar : List NodeRec) (n : ℕ) :
    residualPoints ar [] n = pts ar n := by
  simp [residualPoints, subtractedB]

/-- Closed form for the whole resolution pass: after processing all of
`order`, node `n` keeps exactly its original points that are in no
`order`-node below it.  No nesting hypothesis is needed: when a node is
processed its current points may already have shrunk, but only by points
of its own descendants, which its ancestors subtract anyway. -/
theorem pts_resolve (ar : List NodeRec) (h : WFA ar) :
    ∀ (order : List ℕ) (n : ℕ), pts (resolve ar order) n = residualPoints ar order n := by
  intro order
  induction order using List.reverseRecOn with
  | nil => intro n; rw [residualPoints_nil]; rfl
  | append_singleton o i ih =>
    intro n
    rw [resolve, List.foldl_concat, ← resolve, pts_subtractFromAncestors,
      ancList_resolve]
    have hsubB : ∀ x, subtractedB ar (o ++ [i]) n x =
        (subtractedB ar o n x || (decide (n ∈ ancList ar i) && decide (x ∈ pts ar i))) := by
      intro x
      rw [subtractedB, List.any_append, subtractedB]
      simp [subtractedB]
    by_cases hmem : n ∈ ancList ar i
    · rw [if_pos hmem, ih n, ih i]
      rw [residualPoints, residualPoints, List.filter_filter, residualPoints]
      apply List.filter_congr
      intro x _
      cases hsub : subtractedB ar o n x with
      | true =>
        have h2 : subtractedB ar (o ++ [i]) n x = true := by
          rw [hsubB x, hsub, Bool.true_or]
        rw [h2]
        simp
      | false =>
        have hnos : ¬ Subtracted ar o n x := by
          intro hs
          have := subtractedB_iff.mpr hs
          rw [hsub] at this
          cases this
        have hd1 : decide (n ∈ ancList ar i) = true := decide_eq_true hmem
        rw [hsubB x, hsub, hd1, Bool.false_or, Bool.true_and, Bool.not_false,
          Bool.and_true, ← decide_not, decide_eq_decide]
        constructor
        · intro hni hxi
          apply hni
          refine List.mem_filter.mpr ⟨hxi, ?_⟩
          have hfalse : subtractedB ar o i x = false := by
            cases hB : subtractedB ar o i x
            · rfl
            · obtain ⟨d, hd, hanc, hxd⟩ := subtractedB_iff.mp hB
              exact absurd ⟨d, hd, ancList_trans h d i n hanc hmem, hxd⟩ hnos
          rw [hfalse]
          rfl
        · intro hni hr
          exact hni (List.mem_filter.mp hr).1
    · rw [if_neg hmem, ih n]
      rw [residualPoints, residualPoints]
      apply List.filter_congr
      intro x _
      have hd0 : decide (n ∈ ancList ar i) = false := decide_eq_false hmem
      rw [hsubB x, hd0, Bool.false_and, Bool.or_false]

theorem nodeRec_ext {a b : NodeRec} (h1 : a.points = b.points)
    (h2 : a.parent = b.parent) (h3 : a.depth = b.depth) : a = b := by
  cases a; cases b; simp_all

/-- Two arenas with the same length and pointwise equal fields are equal. -/
theorem arena_ext (ar1 ar2 : List NodeRec) (hlen : ar1.length = ar2.length)
    (hpts : ∀ j, pts ar1 j = pts ar2 j) (hpar : ∀ j, parentOf ar1 j = parentOf ar2 j)
    (hdep : ∀ j, depthOf ar1 j = depthOf ar2 j) : ar1 = ar2 := by
  apply List.ext_get?
  intro j
  by_cases hj : j < ar1.length
  · have hj2 : j < ar2.length := hlen ▸ hj
    rw [List.get?_eq_getElem?, List.get?_eq_getElem?,
      List.getElem?_eq_getElem hj, List.getElem?_eq_getElem hj2]
    have e1 : ar1[j] = ar1.getD j dummyNode := (List.getD_eq_getElem ar1 dummyNode hj).symm
    have e2 : ar2[j] = ar2.getD j dummyNode := (List.getD_eq_getElem ar2 dummyNode hj2).symm
    rw [e1, e2]
    exact congrArg some (nodeRec_ext (hpts j) (hpar j) (hdep j))
  · have hj2 : ¬ j < ar2.length := hlen ▸ hj
    rw [List.get?_eq_getElem?, List.get?_eq_getElem?, List.getElem?_eq_none (by omega),
      List.getElem?_eq_none (by omega)]

theorem subtractedB_congr_order (ar : List NodeRec) (o1 o2 : List ℕ)
    (hmem : ∀ d, d ∈ o1 ↔ d ∈ o2) (n x : ℕ) :
    subtractedB ar o1 n x = subtractedB ar o2 n x := by
  rw [Bool.eq_iff_iff, subtractedB_iff, subtractedB_iff]
  constructor
  · rintro ⟨d, hd, hrest⟩; exact ⟨d, (hmem d).mp hd, hrest⟩
  · rintro ⟨d, hd, hrest⟩; exact ⟨d, (hmem d).mpr hd, hrest⟩

/-- Resolution is order independent: two passes over orders with the same
members produce identical arenas. -/
theorem resolve_congr_order (ar : List NodeRec) (h : WFA ar) (o1 o2 : List ℕ)
    (hmem : ∀ d, d ∈ o1 ↔ d ∈ o2) : resolve ar o1 = resolve ar o2 := by
  apply arena_ext
  · rw [length_resolve, length_resolve]
  · intro j
    rw [pts_resolve ar h o1 j, pts_resolve ar h o2 j, residualPoints, residualPoints]
    apply List.filter_congr
    intro x _
    rw [subtractedB_congr_order ar o1 o2 hmem]
  · intro j; rw [parentOf_resolve, parentOf_resolve]
  · intro j; rw [depthOf_resolve, depthOf_resolve]

/-- Subtracting one node from all its ancestors twice is the same as doing
it once. -/
theorem subtractFromAncestors_idem (ar : List NodeRec) (h : WFA ar) (i : ℕ) :
    subtractFromAncestors (subtractFromAncestors ar i) i = subtractFromAncestors ar i := by
  have hanc : ancList (subtractFromAncestors ar i) i = ancList ar i :=
    ancList_subtractFromAncestors ar i i
  have hpts_i : pts (subtractFromAncestors ar i) i = pts ar i := by
    rw [pts_subtractFromAncestors, if_neg (not_self_mem_ancList h i)]
  apply arena_ext
  · rw [length_subtractFromAncestors, length_subtractFromAncestors]
  · intro j
    rw [pts_subtractFromAncestors (subtractFromAncestors ar i) i j, hanc, hpts_i]
    by_cases hj : j ∈ ancList ar i
    · rw [if_pos hj, pts_subtractFromAncestors ar i j, if_pos hj, List.filter_filter]
      apply List.filter_congr
      intro x _
      rw [Bool.and_self]
    · rw [if_neg hj]
  · intro j
    rw [parentOf_subtractFromAncestors, parentOf_subtractFromAncestors]
  · intro j
    rw [depthOf_subtractFromAncestors, depthOf_subtractFromAncestors]

/-! ## The stable sort by decreasing key -/

theorem mem_insertByDesc {key : ℕ → ℕ} {x a : ℕ} :
    ∀ {l : List ℕ}, a ∈ insertByDesc key x l ↔ a = x ∨ a ∈ l := by
  intro l
  induction l with
  | nil => simp [insertByDesc]
  | cons y tl ih =>
    rw [insertByDesc]
    by_cases hc : key y ≤ key x
    · simp [hc]
    · rw [if_neg hc]
      simp only [List.mem_cons, ih]
      tauto

theorem perm_insertByDesc (key : ℕ → ℕ) (x : ℕ) :
    ∀ (l : List ℕ), (insertByDesc key x l).Perm (x :: l) := by
  intro l
  induction l with
  | nil => simp [insertByDesc]
  | cons y tl ih =>
    rw [insertByDesc]
    by_cases hc : key y ≤ key x
    · rw [if_pos hc]
    · rw [if_neg hc]
      exact (List.Perm.cons y ih).trans (List.Perm.swap x y tl)

theorem perm_sortByDesc (key : ℕ → ℕ) : ∀ (l : List ℕ), (sortByDesc key l).Perm l := by
  intro l
  induction l with
  | nil => rfl
  | cons y tl ih =>
    have : sortByDesc key (y :: tl) = insertByDesc key y (sortByDesc key tl) := rfl
    rw [this]
    exact (perm_insertByDesc key y (sortByDesc key tl)).trans (List.Perm.cons y ih)

theorem mem_sortByDesc {key : ℕ → ℕ} {l : List ℕ} {a : ℕ} :
    a ∈ sortByDesc key l ↔ a ∈ l :=
  (perm_sortByDesc key l).mem_iff

theorem nodup_sortByDesc {key : ℕ → ℕ} {l : List ℕ} (h : l.Nodup) :
    (sortByDesc key l).Nodup :=
  (perm_sortByDesc key l).nodup_iff.mpr h

theorem pairwise_insertByDesc (key : ℕ → ℕ) (x : ℕ) :
    ∀ (l : List ℕ), l.Pairwise (fun a b => key b ≤ key a) →
      (insertByDesc key x l).Pairwise (fun a b => key b ≤ key a) := by
  intro l
  induction l with
  | nil => intro _; simp [insertByDesc]
  | cons y tl ih =>
    intro hp
    rw [insertByDesc]
    rcases List.pairwise_cons.mp hp with ⟨hy, htl⟩
    by_cases hc : key y ≤ key x
    · rw [if_pos hc]
      refine List.pairwise_cons.mpr ⟨?_, hp⟩
      intro b hb
      rcases List.mem_cons.mp hb with rfl | hb
      · exact hc
      · exact le_trans (hy b hb) hc
    · rw [if_neg hc]
      refine List.pairwise_cons.mpr ⟨?_, ih htl⟩
      intro b hb
      rcases mem_insertByDesc.mp hb with rfl | hb
      · omega
      · exact hy b hb

theorem pairwise_sortByDesc (key : ℕ → ℕ) :
    ∀ (l : List ℕ), (sortByDesc key l).Pairwise (fun a b => key b ≤ key a) := by
  intro l
  induction l with
  | nil => exact List.Pairwise.nil
  | cons y tl ih => exact pairwise_insertByDesc key y (sortByDesc key tl) ih

theorem mem_descendantsByDepth {ar : List NodeRec} {i : ℕ} :
    i ∈ descendantsByDepth ar ↔ i ≠ 0 ∧ i < ar.length := by
  rw [descendantsByDepth, mem_sortByDesc, mem_nonRootIndices]

theorem completeOrder_descendantsByDepth (ar : List NodeRec) :
    CompleteOrder ar (descendantsByDepth ar) := by
  constructor
  · intro i hi; exact mem_descendantsByDepth.mp hi
  · intro i hi hne; exact mem_descendantsByDepth.mpr ⟨hne, hi⟩

theorem nodup_descendantsByDepth (ar : List NodeRec) : (descendantsByDepth ar).Nodup :=
  nodup_sortByDesc (nodup_nonRootIndices ar)

/-! ## Appending children: stability of old nodes and their chains -/

theorem pts_append_left (ar ext : List NodeRec) (j : ℕ) (hj : j < ar.length) :
    pts (ar ++ ext) j = pts ar j := by
  rw [pts, pts, getD_append_left ar ext j dummyNode hj]

theorem depthOf_append_left (ar ext : List NodeRec) (j : ℕ) (hj : j < ar.length) :
    depthOf (ar ++ ext) j = depthOf ar j := by
  rw [depthOf, depthOf, getD_append_left ar ext j dummyNode hj]

theorem parentOf_append_left (ar ext : List NodeRec) (j : ℕ) (hj : j < ar.length) :
    parentOf (ar ++ ext) j = parentOf ar j := by
  rw [parentOf, parentOf, getD_append_left ar ext j dummyNode hj]

theorem ancIdx_append (ar ext : List NodeRec) (h : WFA ar) :
    ∀ fuel i, i < ar.length → ancIdx (ar ++ ext) fuel i = ancIdx ar fuel i := by
  intro fuel
  induction fuel with
  | zero => intro i _; rfl
  | succ fuel ih =>
    intro i hi
    cases hp : parentOf ar i with
    | none =>
      rw [ancIdx_succ_none ar fuel i hi hp,
        ancIdx_succ_none (ar ++ ext) fuel i (by rw [List.length_append]; omega)
          (by rw [parentOf_append_left ar ext i hi]; exact hp)]
    | some p =>
      have hplt : p < i := h.parent_lt hi hp
      rw [ancIdx_succ_some ar fuel i p hi hp,
        ancIdx_succ_some (ar ++ ext) fuel i p (by rw [List.length_append]; omega)
          (by rw [parentOf_append_left ar ext i hi]; exact hp),
        ih p (by omega)]

theorem ancList_append_left (ar ext : List NodeRec) (h : WFA ar) (i : ℕ)
    (hi : i < ar.length) : ancList (ar ++ ext) i = ancList ar i :=
  ancIdx_append ar ext h i i hi

/-! ## The children produced by one primitive invocation -/

theorem length_newChildren (ar : List NodeRec) (pidx : List ℕ) (labels : List ℤ) (p : ℕ) :
    (newChildren ar pidx labels p).length = (maxLabel labels + 1).toNat := by
  simp [newChildren]

theorem getD_newChildren (ar : List NodeRec) (pidx : List ℕ) (labels : List ℤ) (p c : ℕ)
    (hc : c < (maxLabel labels + 1).toNat) :
    (newChildren ar pidx labels p).getD c dummyNode =
      { points := originalIdx pidx labels (Int.ofNat c),
        parent := some p,
        depth := depthOf ar p + 1 } := by
  rw [newChildren, getD_map_range _ _ _ _ hc]

theorem mem_originalIdx {pidx : List ℕ} {labels : List ℤ} {c : ℤ} {x : ℕ} :
    x ∈ originalIdx pidx labels c ↔
      ∃ k, k < labels.length ∧ labels.getD k (-1) = c ∧ pidx.getD k 0 = x := by
  simp only [originalIdx, List.mem_map, List.mem_filter, List.mem_range, beq_iff_eq]
  constructor
  · rintro ⟨k, ⟨hk, hl⟩, hx⟩; exact ⟨k, hk, hl, hx⟩
  · rintro ⟨k, hk, hl, hx⟩; exact ⟨k, ⟨hk, hl⟩, hx⟩

theorem originalIdx_subset {pidx : List ℕ} {labels : List ℤ} {c : ℤ}
    (hlen : labels.length = pidx.length) :
    ∀ x ∈ originalIdx pidx labels c, x ∈ pidx := by
  intro x hx
  obtain ⟨k, hk, _, hgx⟩ := mem_originalIdx.mp hx
  have hk2 : k < pidx.length := by omega
  rw [← hgx, List.getD_eq_getElem pidx 0 hk2]
  exact List.getElem_mem hk2

theorem originalIdx_disjoint {pidx : List ℕ} {labels : List ℤ} {c c' : ℤ}
    (hnd : pidx.Nodup) (hlen : labels.length = pidx.length) (hcc : c ≠ c') :
    ∀ x ∈ originalIdx pidx labels c, x ∉ originalIdx pidx labels c' := by
  intro x hx hx'
  obtain ⟨k, hk, hlk, hgk⟩ := mem_originalIdx.mp hx
  obtain ⟨k', hk', hlk', hgk'⟩ := mem_originalIdx.mp hx'
  have hkk : k ≠ k' := fun he => hcc (by rw [← hlk, ← hlk', he])
  have h1 : k < pidx.length := by omega
  have h2 : k' < pidx.length := by omega
  rw [List.getD_eq_getElem pidx 0 h1] at hgk
  rw [List.getD_eq_getElem pidx 0 h2] at hgk'
  exact hkk (hnd.getElem_inj_iff.mp (by rw [hgk, hgk']))

theorem nodup_originalIdx {pidx : List ℕ} {labels : List ℤ} {c : ℤ}
    (hnd : pidx.Nodup) (hlen : labels.length = pidx.length) :
    (originalIdx pidx labels c).Nodup := by
  rw [originalIdx]
  apply List.Nodup.map_on
  · intro k hk k' hk' hval
    rcases List.mem_filter.mp hk with ⟨hkr, -⟩
    rcases List.mem_filter.mp hk' with ⟨hkr', -⟩
    rw [List.mem_range] at hkr hkr'
    have h1 : k < pidx.length := by omega
    have h2 : k' < pidx.length := by omega
    rw [List.getD_eq_getElem pidx 0 h1, List.getD_eq_getElem pidx 0 h2] at hval
    exact hnd.getElem_inj_iff.mp hval
  · exact (List.nodup_range _).filter _

/-! ## Well-formedness is preserved by attaching children -/

theorem WFA_append_children (ar : List NodeRec) (pidx : List ℕ) (labels : List ℤ)
    (p : ℕ) (h : WFA ar) (hp : p < ar.length) :
    WFA (ar ++ newChildren ar pidx labels p) := by
  set ext := newChildren ar pidx labels p with hext
  constructor
  · rw [List.length_append]; have := h.1; omega
  · intro i hi
    rw [List.length_append] at hi
    by_cases hio : i < ar.length
    · have hgi : (ar ++ ext).getD i dummyNode = ar.getD i dummyNode :=
        getD_append_left ar ext i dummyNode hio
    
      rcases h.2 i hio with ⟨h1, h2, h3⟩ | ⟨h1, h2, h3, h4⟩
      · exact Or.inl (by rw [hgi]; exact ⟨h1, h2, h3⟩)
      · refine Or.inr ?_
        rw [hgi]
        refine ⟨h1, h2, h3, ?_⟩
        rw [getD_append_left ar ext _ dummyNode (by omega)]
        exact h4
    · have hge : ar.length ≤ i := by omega
      have hci : i - ar.length < ext.length := by omega
      have hgi : (ar ++ ext).getD i dummyNode = ext.getD (i - ar.length) dummyNode :=
        getD_append_right ar ext i dummyNode hge
      have hcl : i - ar.length < (maxLabel labels + 1).toNat := by
        rw [hext, length_newChildren] at hci; exact hci
      refine Or.inr ?_
      rw [hgi, hext, getD_newChildren ar pidx labels p (i - ar.length) hcl]
      refine ⟨rfl, by have := h.1; omega, ?_, ?_⟩
      · simp only [Option.getD_some]; omega
      · simp only [Option.getD_some]
        rw [getD_append_left ar ext p dummyNode hp]
        rfl

/-- The invariant carried through the tree build: a well-formed arena,
pairwise-disjoint points between incomparable nodes, duplicate-free points
lists, and a bound on all node depths. -/
def BuildInv (ar : List NodeRec) (D : ℕ) : Prop :=
  WFA ar ∧ IncompDisj ar ∧ (∀ i < ar.length, (pts ar i).Nodup) ∧
    (∀ i < ar.length, depthOf ar i ≤ D)

theorem BuildInv.mono {ar : List NodeRec} {D D' : ℕ} (h : BuildInv ar D) (hD : D ≤ D') :
    BuildInv ar D' :=
  ⟨h.1, h.2.1, h.2.2.1, fun i hi => le_trans (h.2.2.2 i hi) hD⟩

/-- In a well-formed arena no node deeper than every other node has
children; in particular the nodes of the current maximal depth are
childless. -/
theorem childless_of_depth_max {ar : List NodeRec} (h : WFA ar) {d : ℕ}
    (hbound : ∀ i < ar.length, depthOf ar i ≤ d) {q : ℕ} (hq : depthOf ar q = d) :
    childless ar q := by
  intro j hj hpar
  have hd : depthOf ar j = depthOf ar q + 1 :=
    h.depth_parent hj (by rw [parentOf]; exact hpar)
  have := hbound j hj
  omega

/-- Ancestors of a freshly attached child: its parent followed by the
parent's ancestors. -/
theorem ancList_new_child (ar : List NodeRec) (pidx : List ℕ) (labels : List ℤ)
    (p : ℕ) (h : WFA ar) (hp : p < ar.length) (j : ℕ) (hge : ar.length ≤ j)
    (hlt : j < (ar ++ newChildren ar pidx labels p).length) :
    ancList (ar ++ newChildren ar pidx labels p) j = p :: ancList ar p := by
  set ext := newChildren ar pidx labels p with hext
  have hwf2 : WFA (ar ++ ext) := WFA_append_children ar pidx labels p h hp
  have hc : j - ar.length < (maxLabel labels + 1).toNat := by
    have := hlt
    rw [List.length_append, hext, length_newChildren] at this
    omega
  have hpar : parentOf (ar ++ ext) j = some p := by
    rw [parentOf, getD_append_right ar ext j dummyNode hge, hext,
      getD_newChildren ar pidx labels p (j - ar.length) hc]
  rw [ancList_unfold hwf2 hlt hpar, ancList_append_left ar ext h p hp]

theorem pts_new_child (ar : List NodeRec) (pidx : List ℕ) (labels : List ℤ)
    (p : ℕ) (j : ℕ) (hge : ar.length ≤ j)
    (hc : j - ar.length < (maxLabel labels + 1).toNat) :
    pts (ar ++ newChildren ar pidx labels p) j =
      originalIdx pidx labels (Int.ofNat (j - ar.length)) := by
  rw [pts, getD_append_right ar _ j dummyNode hge,
    getD_newChildren ar pidx labels p (j - ar.length) hc]

/-- One invocation of the wrapper preserves the build invariant, provided
the primitive returned one label per point, the subset handed over is
duplicate-free, the parent is a childless valid node, and the subset is
disjoint from every node incomparable with the parent. -/
theorem build_step (ar : List NodeRec) (pidx : List ℕ) (labels : List ℤ) (p D : ℕ)
    (hInv : BuildInv ar D)
    (hp : p < ar.length)
    (hlab : labels.length = pidx.length)
    (hnd : pidx.Nodup)
    (hchild : childless ar p)
    (hdisj : ∀ m, m < ar.length → m ≠ p → m ∉ ancList ar p → p ∉ ancList ar m →
      ∀ x ∈ pidx, x ∉ pts ar m)
    (hdD : depthOf ar p + 1 ≤ D) :
    BuildInv (ar ++ newChildren ar pidx labels p) D := by
  obtain ⟨hwf, hinc, hndp, hdep⟩ := hInv
  set ext := newChildren ar pidx labels p with hext
  have hwf2 : WFA (ar ++ ext) := WFA_append_children ar pidx labels p hwf hp
  have hlen2 : (ar ++ ext).length = ar.length + (maxLabel labels + 1).toNat := by
    rw [List.length_append, hext, length_newChildren]
  refine ⟨hwf2, ?_, ?_, ?_⟩
  · -- incomparable nodes keep disjoint points
    -- a new child is disjoint from every old node not on its own chain,
    -- and from its new siblings
    have key : ∀ j, ar.length ≤ j → j < (ar ++ ext).length →
        ∀ i < ar.length, i ∉ ancList (ar ++ ext) j →
        ∀ x ∈ pts (ar ++ ext) j, x ∉ pts (ar ++ ext) i := by
      intro j hgej hltj i hio hnanc x hxj hxi
      rw [ancList_new_child ar pidx labels p hwf hp j hgej hltj] at hnanc
      have hnp : i ≠ p := fun he => hnanc (he ▸ List.mem_cons_self _ _)
      have hnap : i ∉ ancList ar p := fun hm => hnanc (List.mem_cons_of_mem _ hm)
      have hpna : p ∉ ancList ar i := by
        intro hm
        obtain ⟨c, _, hcp, hcl⟩ := ancList_chain hwf i p hm
        exact hchild c hcl (by rw [parentOf] at hcp; exact hcp)
      have hxp : x ∈ pidx := by
        have hc : j - ar.length < (maxLabel labels + 1).toNat := by omega
        rw [pts_new_child ar pidx labels p j hgej hc] at hxj
        exact originalIdx_subset hlab x hxj
      rw [pts_append_left ar ext i hio] at hxi
      exact hdisj i hio hnp hnap hpna x hxp hxi
    intro i hi j hj hij hnij hnji x hxi hxj
    rw [hlen2] at hi hj
    by_cases hio : i < ar.length <;> by_cases hjo : j < ar.length
    · -- both old
      rw [ancList_append_left ar ext hwf i hio] at hnji
      rw [ancList_append_left ar ext hwf j hjo] at hnij
      rw [pts_append_left ar ext i hio] at hxi
      rw [pts_append_left ar ext j hjo] at hxj
      exact hinc i hio j hjo hij hnij hnji x hxi hxj
    · -- i old, j new
      exact key j (by omega) (by omega) i hio hnij x hxj hxi
    · -- i new, j old
      exact key i (by omega) (by omega) j hjo hnji x hxi hxj
    · -- both new: distinct children of `p` carry distinct labels
      have hci : i - ar.length < (maxLabel labels + 1).toNat := by omega
      have hcj : j - ar.length < (maxLabel labels + 1).toNat := by omega
      rw [pts_new_child ar pidx labels p i (by omega) hci] at hxi
      rw [pts_new_child ar pidx labels p j (by omega) hcj] at hxj
      have hcc : Int.ofNat (i - ar.length) ≠ Int.ofNat (j - ar.length) := by
        intro he
        have h2 : i - ar.length = j - ar.length := Int.ofNat.inj he
        exact hij (by omega)
      exact originalIdx_disjoint hnd hlab hcc x hxi hxj
  · -- duplicate-free points
    intro i hi
    rw [hlen2] at hi
    by_cases hio : i < ar.length
    · rw [pts_append_left ar ext i hio]; exact hndp i hio
    · rw [pts_new_child ar pidx labels p i (by omega) (by omega)]
      exact nodup_originalIdx hnd hlab
  · -- depth bound
    intro i hi
    rw [hlen2] at hi
    by_cases hio : i < ar.length
    · rw [depthOf_append_left ar ext i hio]; exact hdep i hio
    · have hc : i - ar.length < (maxLabel labels + 1).toNat := by omega
      rw [depthOf, getD_append_right ar ext i dummyNode (by omega), hext,
        getD_newChildren ar pidx labels p (i - ar.length) hc]
      exact hdD

/-! ## The depth loop of `fit` -/

theorem mem_nodesAtDepth {ar : List NodeRec} {d i : ℕ} :
    i ∈ nodesAtDepth ar d ↔ i ≠ 0 ∧ i < ar.length ∧ depthOf ar i = d := by
  simp only [nodesAtDepth, List.mem_filter, mem_nonRootIndices, beq_iff_eq]
  tauto

theorem nodup_nodesAtDepth (ar : List NodeRec) (d : ℕ) : (nodesAtDepth ar d).Nodup :=
  (nodup_nonRootIndices ar).filter _

theorem run_arena (prim : List ℕ → ℚ → List ℤ) (pidx : List ℕ) (eps : ℚ) (p : ℕ)
    (st : VState) :
    (run_dbscan_on_node prim pidx eps p st).arena =
      st.arena ++ newChildren st.arena pidx (prim pidx eps) p := rfl

theorem run_calls (prim : List ℕ → ℚ → List ℤ) (pidx : List ℕ) (eps : ℚ) (p : ℕ)
    (st : VState) :
    (run_dbscan_on_node prim pidx eps p st).calls =
      st.calls ++ [{ points_idx := pidx, eps := eps, parent := p }] := rfl

/-- Invariant of the ghost call log: every recorded invocation was made on
a valid node, with the radius determined by iterating the update function
"depth of that node" many times, and (except for the initial invocation on
the root) strictly below the depth bound. -/
def CallsInv (st : VState) (upd : ℚ → ℚ) (e : ℚ) (md : Option ℕ) : Prop :=
  ∀ c ∈ st.calls, c.parent < st.arena.length ∧
    c.eps = upd^[depthOf st.arena c.parent] e ∧
    (depthOf st.arena c.parent = 0 ∨ depthReached md (depthOf st.arena c.parent) = false)

/-- Folding one level's invocations over all nodes of depth `d` preserves
the build invariant and logs calls only on depth-`d` nodes with the level
radius. -/
theorem fold_build (prim : List ℕ → ℚ → List ℤ)
    (hLen : ∀ l e', (prim l e').length = l.length) (eps : ℚ) (d D : ℕ)
    (hdD : d + 1 ≤ D) :
    ∀ (nxt : List ℕ) (st : VState),
      BuildInv st.arena D →
      nxt.Nodup →
      (∀ q ∈ nxt, q < st.arena.length ∧ depthOf st.arena q = d ∧ childless st.arena q) →
      (BuildInv (nxt.foldl (fun s i => run_dbscan_on_node prim (pts s.arena i) eps i s) st).arena D ∧
       st.arena.length ≤ (nxt.foldl (fun s i => run_dbscan_on_node prim (pts s.arena i) eps i s) st).arena.length ∧
       (∀ j < st.arena.length,
         (nxt.foldl (fun s i => run_dbscan_on_node prim (pts s.arena i) eps i s) st).arena.getD j dummyNode =
           st.arena.getD j dummyNode) ∧
       (∃ newCalls,
         (nxt.foldl (fun s i => run_dbscan_on_node prim (pts s.arena i) eps i s) st).calls =
           st.calls ++ newCalls ∧
         ∀ c ∈ newCalls, c.eps = eps ∧
           c.parent < (nxt.foldl (fun s i => run_dbscan_on_node prim (pts s.arena i) eps i s) st).arena.length ∧
           depthOf (nxt.foldl (fun s i => run_dbscan_on_node prim (pts s.arena i) eps i s) st).arena c.parent = d)) := by
  intro nxt
  induction nxt with
  | nil =>
    intro st hInv _ _
    exact ⟨hInv, le_refl _, fun j _ => rfl, [], by simp, by simp⟩
  | cons q rest ih =>
    intro st hInv hnd hcond
    obtain ⟨hqlt, hqd, hqc⟩ := hcond q (List.mem_cons_self _ _)
    have hqrest : q ∉ rest := (List.nodup_cons.mp hnd).1
    set pidx := pts st.arena q with hpidx
    set labels := prim pidx eps with hlabels
    set s1 := run_dbscan_on_node prim pidx eps q st with hs1
    have hs1arena : s1.arena = st.arena ++ newChildren st.arena pidx labels q := rfl
    have hs1len : st.arena.length ≤ s1.arena.length := by
      rw [hs1arena, List.length_append]; omega
    have hpre1 : ∀ j < st.arena.length, s1.arena.getD j dummyNode = st.arena.getD j dummyNode := by
      intro j hj
      rw [hs1arena, getD_append_left _ _ j dummyNode hj]
    have hInv1 : BuildInv s1.arena D := by
      rw [hs1arena]
      apply build_step st.arena pidx labels q D hInv hqlt (hLen pidx eps)
        (hInv.2.2.1 q hqlt) hqc
      · intro m hm hmq hmanc hqanc x hxq hxm
        exact hInv.2.1 q hqlt m hm (fun he => hmq he.symm) hqanc hmanc x hxq hxm
      · omega
    have hrest : ∀ q' ∈ rest, q' < s1.arena.length ∧ depthOf s1.arena q' = d ∧
        childless s1.arena q' := by
      intro q' hq'
      obtain ⟨h1, h2, h3⟩ := hcond q' (List.mem_cons_of_mem _ hq')
      refine ⟨by omega, ?_, ?_⟩
      · rw [depthOf, hpre1 q' (by omega)]; exact h2
      · intro j hj hpar
        by_cases hjo : j < st.arena.length
        · exact h3 j hjo (by rw [← hpre1 j hjo]; exact hpar)
        · rw [hs1arena] at hj
          rw [List.length_append] at hj
          have hc : j - st.arena.length < (maxLabel labels + 1).toNat := by
            rw [length_newChildren] at hj; omega
          rw [hs1arena, getD_append_right _ _ j dummyNode (by omega),
            getD_newChildren st.arena pidx labels q (j - st.arena.length) hc] at hpar
          simp only [Option.some_inj] at hpar
          exact hqrest (hpar ▸ hq')
    obtain ⟨hI, hL, hP, newCalls, hC, hCprop⟩ := ih s1 hInv1 (List.nodup_cons.mp hnd).2 hrest
    have hfold : (q :: rest).foldl (fun s i => run_dbscan_on_node prim (pts s.arena i) eps i s) st =
        rest.foldl (fun s i => run_dbscan_on_node prim (pts s.arena i) eps i s) s1 := rfl
    rw [hfold]
    set sF := rest.foldl (fun s i => run_dbscan_on_node prim (pts s.arena i) eps i s) s1 with hsF
    have hPall : ∀ j < st.arena.length, sF.arena.getD j dummyNode = st.arena.getD j dummyNode := by
      intro j hj
      rw [hP j (by omega), hpre1 j hj]
    refine ⟨hI, by omega, hPall, ?_⟩
    refine ⟨{ points_idx := pidx, eps := eps, parent := q } :: newCalls, ?_, ?_⟩
    · rw [hC, hs1, run_calls]
      simp
    · intro c hc
      rcases List.mem_cons.mp hc with rfl | hc
      · refine ⟨rfl, ?_, ?_⟩
        · show q < sF.arena.length
          omega
        · show depthOf sF.arena q = d
          rw [depthOf, hPall q hqlt]
          exact hqd
      · exact hCprop c hc

theorem fitLoop_zero_eq (prim : List ℕ → ℚ → List ℤ) (upd : ℚ → ℚ) (md : Option ℕ)
    (d : ℕ) (eps : ℚ) (st : VState) :
    fitLoop prim upd md 0 d eps st =
      (if depthReached md d then some st
       else if (nodesAtDepth st.arena d).isEmpty then some st else none) := rfl

theorem fitLoop_succ_eq (prim : List ℕ → ℚ → List ℤ) (upd : ℚ → ℚ) (md : Option ℕ)
    (fuel d : ℕ) (eps : ℚ) (st : VState) :
    fitLoop prim upd md (fuel + 1) d eps st =
      (if depthReached md d then some st
       else if (nodesAtDepth st.arena d).isEmpty then some st
       else fitLoop prim upd md fuel (d + 1) (upd eps)
         ((nodesAtDepth st.arena d).foldl
           (fun s i => run_dbscan_on_node prim (pts s.arena i) (upd eps) i s) st)) := rfl

/-- Master invariant of the depth loop: any state it returns satisfies the
build invariant at some final depth bound `d'`, keeps the call-log
invariant, and — when `max_depth` is a finite `k` at least the entry
depth — stays within `k`. -/
theorem fitLoop_spec (prim : List ℕ → ℚ → List ℤ) (upd : ℚ → ℚ) (md : Option ℕ)
    (e : ℚ) (hLen : ∀ l e', (prim l e').length = l.length) :
    ∀ (fuel d : ℕ) (eps : ℚ) (st st' : VState),
      fitLoop prim upd md fuel d eps st = some st' →
      1 ≤ d → BuildInv st.arena d → eps = upd^[d - 1] e → CallsInv st upd e md →
      ∃ d', d ≤ d' ∧ BuildInv st'.arena d' ∧ CallsInv st' upd e md ∧
        (∀ k, md = some k → d ≤ k → d' ≤ k) := by
  intro fuel
  induction fuel with
  | zero =>
    intro d eps st st' hrun hd hInv heps hcalls
    rw [fitLoop_zero_eq] at hrun
    by_cases hr : depthReached md d
    · rw [if_pos hr] at hrun
      rw [Option.some_inj] at hrun
      subst hrun
      exact ⟨d, le_refl d, hInv, hcalls, fun k _ hk => hk⟩
    · rw [if_neg hr] at hrun
      by_cases he : (nodesAtDepth st.arena d).isEmpty
      · rw [if_pos he] at hrun
        rw [Option.some_inj] at hrun
        subst hrun
        exact ⟨d, le_refl d, hInv, hcalls, fun k _ hk => hk⟩
      · rw [if_neg he] at hrun
        cases hrun
  | succ fuel ih =>
    intro d eps st st' hrun hd hInv heps hcalls
    rw [fitLoop_succ_eq] at hrun
    by_cases hr : depthReached md d
    · rw [if_pos hr] at hrun
      rw [Option.some_inj] at hrun
      subst hrun
      exact ⟨d, le_refl d, hInv, hcalls, fun k _ hk => hk⟩
    · rw [if_neg hr] at hrun
      by_cases he : (nodesAtDepth st.arena d).isEmpty
      · rw [if_pos he] at hrun
        rw [Option.some_inj] at hrun
        subst hrun
        exact ⟨d, le_refl d, hInv, hcalls, fun k _ hk => hk⟩
      · rw [if_neg he] at hrun
        set nxt := nodesAtDepth st.arena d with hnxt
        set st1 := nxt.foldl
          (fun s i => run_dbscan_on_node prim (pts s.arena i) (upd eps) i s) st with hst1
        have hcond : ∀ q ∈ nxt, q < st.arena.length ∧ depthOf st.arena q = d ∧
            childless st.arena q := by
          intro q hq
          obtain ⟨h0, h1, h2⟩ := mem_nodesAtDepth.mp hq
          exact ⟨h1, h2, childless_of_depth_max hInv.1 hInv.2.2.2 h2⟩
        obtain ⟨hI1, hL1, hP1, newCalls, hC1, hCprop⟩ :=
          fold_build prim hLen (upd eps) d (d + 1) (le_refl _) nxt st
            (hInv.mono (by omega)) (nodup_nodesAtDepth st.arena d) hcond
        have heps' : upd eps = upd^[(d + 1) - 1] e := by
          rw [heps, ← Function.iterate_succ_apply' upd (d - 1) e]
          congr 1
          omega
        rw [← hst1] at hC1 hCprop hL1 hP1 hI1
        have hcalls1 : CallsInv st1 upd e md := by
          intro c hc
          rw [hC1] at hc
          rcases List.mem_append.mp hc with hc | hc
          · obtain ⟨h1, h2, h3⟩ := hcalls c hc
            have hde : depthOf st1.arena c.parent = depthOf st.arena c.parent := by
              rw [depthOf, depthOf, hP1 c.parent h1]
            refine ⟨by omega, ?_, ?_⟩
            · rw [hde]; exact h2
            · rw [hde]; exact h3
          · obtain ⟨h1, h2, h3⟩ := hCprop c hc
            refine ⟨h2, ?_, ?_⟩
            · rw [h3, h1, heps']
              congr 1
            · rw [h3]
              right
              cases md with
              | none => rfl
              | some k =>
                rw [depthReached]
                simp only [decide_eq_false_iff_not]
                intro hk
                exact hr (by rw [depthReached]; simp only [decide_eq_true_eq]; omega)
        obtain ⟨d', hdle, hI', hC', hbound⟩ :=
          ih (d + 1) (upd eps) st1 st' hrun (by omega) hI1 heps' hcalls1
        refine ⟨d', by omega, hI', hC', ?_⟩
        intro k hk hdk
        apply hbound k hk
        subst hk
        rw [depthReached] at hr
        simp only [decide_eq_true_eq] at hr
        omega

/-! ## The initial invocation on the root and the whole of `fit` -/

theorem initState_buildInv : BuildInv initState.arena 1 := by
  have hlen : initState.arena.length = 1 := rfl
  refine ⟨⟨by decide, ?_⟩, ?_, ?_, ?_⟩
  · intro i hi
    have hi0 : i = 0 := by omega
    subst hi0
    exact Or.inl ⟨rfl, rfl, rfl⟩
  · intro i hi j hj hij _ _
    have hi0 : i = 0 := by omega
    have hj0 : j = 0 := by omega
    exact absurd (hi0.trans hj0.symm) hij
  · intro i hi
    have hi0 : i = 0 := by omega
    subst hi0
    exact List.nodup_nil
  · intro i hi
    have hi0 : i = 0 := by omega
    subst hi0
    decide

theorem init_run_buildInv (prim : List ℕ → ℚ → List ℤ)
    (hLen : ∀ l e', (prim l e').length = l.length) (n : ℕ) (e : ℚ) :
    BuildInv (run_dbscan_on_node prim (List.range n) e 0 initState).arena 1 := by
  rw [run_arena]
  apply build_step initState.arena (List.range n) (prim (List.range n) e) 0 1
    initState_buildInv (by decide)
  · rw [hLen, List.length_range]
  · exact List.nodup_range n
  · intro j hj hpar
    have hj1 : j = 0 := by
      have : initState.arena.length = 1 := by decide
      omega
    subst hj1
    exact absurd hpar (by decide)
  · intro m hm hm0
    have hm1 : m = 0 := by
      have : initState.arena.length = 1 := by decide
      omega
    exact absurd hm1 hm0
  · decide

theorem init_run_callsInv (prim : List ℕ → ℚ → List ℤ) (upd : ℚ → ℚ) (md : Option ℕ)
    (n : ℕ) (e : ℚ) :
    CallsInv (run_dbscan_on_node prim (List.range n) e 0 initState) upd e md := by
  intro c hc
  rw [run_calls] at hc
  simp only [initState, List.nil_append, List.mem_singleton] at hc
  subst hc
  have hd0 : depthOf (run_dbscan_on_node prim (List.range n) e 0 initState).arena 0 = 0 := by
    rw [run_arena, depthOf, getD_append_left _ _ 0 dummyNode (by decide)]
    rfl
  refine ⟨?_, ?_, ?_⟩
  · show 0 < (run_dbscan_on_node prim (List.range n) e 0 initState).arena.length
    rw [run_arena, List.length_append]
    have : initState.arena.length = 1 := by decide
    omega
  · show e = upd^[depthOf (run_dbscan_on_node prim (List.range n) e 0 initState).arena 0] e
    rw [hd0]
    rfl
  · left
    exact hd0

/-- Unpacking a successful `fitFrom`: the loop returned some state `st2`
satisfying the invariants, and the final state and result are obtained
from it by overlap resolution and extraction. -/
theorem fitFresh_spec (prim : List ℕ → ℚ → List ℤ) (upd : ℚ → ℚ) (md : Option ℕ)
    (fuel n : ℕ) (e : ℚ) (mp : ℕ) (st3 : VState) (res : List (List ℕ))
    (hLen : ∀ l e', (prim l e').length = l.length)
    (h : fitFresh prim upd md fuel n e mp = some (st3, res)) :
    ∃ (st2 : VState) (d' : ℕ), 1 ≤ d' ∧ BuildInv st2.arena d' ∧ CallsInv st2 upd e md ∧
      st3.arena = remove_child_cluster_points_from_parents st2.arena ∧
      res = extractClusters st3.arena mp ∧
      st3.calls = st2.calls ∧ st3.dbscan_performed = st2.dbscan_performed ∧
      (∀ k, md = some k → 1 ≤ k → d' ≤ k) := by
  rw [fitFresh, fitFrom, Option.map_eq_some'] at h
  obtain ⟨st2, hloop, hpair⟩ := h
  obtain ⟨d', hd1, hInv, hCalls, hbound⟩ :=
    fitLoop_spec prim upd md e hLen fuel 1 e
      (run_dbscan_on_node prim (List.range n) e 0 initState) st2 hloop (le_refl 1)
      (init_run_buildInv prim hLen n e) (by simp)
      (init_run_callsInv prim upd md n e)
  have h3 : st3 = { st2 with arena := remove_child_cluster_points_from_parents st2.arena } := by
    have := congrArg Prod.fst hpair
    simp only at this
    exact this.symm
  have hres : res = extractClusters (remove_child_cluster_points_from_parents st2.arena) mp := by
    have := congrArg Prod.snd hpair
    simp only at this
    exact this.symm
  refine ⟨st2, d', hd1, hInv, hCalls, ?_, ?_, ?_, ?_, fun k hk h1 => hbound k hk h1⟩
  · rw [h3]
  · rw [h3, hres]
  · rw [h3]
  · rw [h3]

/-! ## Disjointness after overlap resolution -/

/-- After the resolution pass, each node is disjoint from every one of its
strict descendants (no extra hypothesis beyond well-formedness). -/
theorem resolved_desc_disjoint (ar : List NodeRec) (hwf : WFA ar) (i j : ℕ)
    (hj : j ∈ ancList ar i) :
    ∀ x ∈ pts (remove_child_cluster_points_from_parents ar) i,
      x ∉ pts (remove_child_cluster_points_from_parents ar) j := by
  intro x hxi hxj
  rw [remove_child_cluster_points_from_parents, pts_resolve ar hwf,
    mem_residualPoints] at hxi hxj
  obtain ⟨hji, hilt⟩ := mem_ancList_lt hwf i j hj
  have hine : i ≠ 0 := by omega
  exact hxj.2 ⟨i, mem_descendantsByDepth.mpr ⟨hine, hilt⟩, hj, hxi.1⟩

/-- After the resolution pass, any two distinct non-root nodes have
disjoint points, provided incomparable nodes started disjoint. -/
theorem resolved_disjoint (ar : List NodeRec) (hwf : WFA ar) (hinc : IncompDisj ar)
    (a b : ℕ) (ha : a ≠ 0) (halt : a < ar.length) (hb : b ≠ 0) (hblt : b < ar.length)
    (hab : a ≠ b) :
    ∀ x ∈ pts (remove_child_cluster_points_from_parents ar) a,
      x ∉ pts (remove_child_cluster_points_from_parents ar) b := by
  by_cases hba : b ∈ ancList ar a
  · intro x hxa hxb
    exact resolved_desc_disjoint ar hwf a b hba x hxa hxb
  · by_cases hab' : a ∈ ancList ar b
    · intro x hxa hxb
      exact resolved_desc_disjoint ar hwf b a hab' x hxb hxa
    · intro x hxa hxb
      rw [remove_child_cluster_points_from_parents, pts_resolve ar hwf,
        mem_residualPoints] at hxa hxb
      exact hinc a halt b hblt hab hab' hba x hxa.1 hxb.1

/-- The extraction step of `fit` produces pairwise disjoint clusters when
the incomparable-disjointness invariant holds before resolution. -/
theorem extract_pairwise_disjoint (ar : List NodeRec) (hwf : WFA ar)
    (hinc : IncompDisj ar) (mp : ℕ) :
    (extractClusters (remove_child_cluster_points_from_parents ar) mp).Pairwise
      (fun s t => ∀ x ∈ s, x ∉ t) := by
  set ar3 := remove_child_cluster_points_from_parents ar with har3
  have hlen3 : ar3.length = ar.length := by
    rw [har3, remove_child_cluster_points_from_parents, length_resolve]
  rw [extractClusters]
  refine List.pairwise_map.mpr ?_
  have hnd : ((descendantsByDepth ar3).filter
      (fun i => mp ≤ (pts ar3 i).length)).Nodup :=
    (nodup_descendantsByDepth ar3).filter _
  refine List.Pairwise.imp_of_mem ?_ hnd
  intro a b hma hmb hab
  have hva := mem_descendantsByDepth.mp (List.mem_filter.mp hma).1
  have hvb := mem_descendantsByDepth.mp (List.mem_filter.mp hmb).1
  exact resolved_disjoint ar hwf hinc a b hva.1 (by omega) hvb.1 (by omega) hab

/-! ## Concrete primitives used for witnesses and counterexamples.
They ignore the radius, so that runs evaluate by kernel reduction without
normalising rationals; each satisfies the section-6 contract. -/

/-- A primitive that labels every point as noise. -/
def allNoise : List ℕ → ℚ → List ℤ := fun l _ => l.map (fun _ => -1)

/-- A primitive that puts every point into cluster `0`. -/
def oneCluster : List ℕ → ℚ → List ℤ := fun l _ => l.map (fun _ => 0)

/-- A primitive that splits off a strict sub-cluster at each level: on a
three-point subset it clusters the first two points and calls the third
noise, on a two-point subset it clusters the first point only, and it
returns all-noise otherwise. -/
def shrinkingPrim : List ℕ → ℚ → List ℤ := fun l _ =>
  match l with
  | [_, _, _] => [0, 0, -1]
  | [_, _] => [0, -1]
  | _ => l.map (fun _ => -1)

theorem maxLabel_replicate_neg (l : List ℕ) : maxLabel (l.map (fun _ => (-1 : ℤ))) = -1 := by
  rw [maxLabel]
  induction l with
  | nil => rfl
  | cons x tl ih =>
    simp only [List.map_cons, List.foldl_cons, max_self]
    exact ih

theorem primContract_allNoise : PrimContract allNoise := by
  intro l e
  refine ⟨by simp [allNoise], ?_, ?_⟩
  · intro c hc
    rw [allNoise] at hc
    simp only [List.mem_map] at hc
    obtain ⟨_, _, rfl⟩ := hc
    exact Or.inl rfl
  · intro c hc0 hcm
    rw [allNoise, maxLabel_replicate_neg] at hcm
    omega

/-! ## Remaining helper lemmas for the claims -/

theorem fitFrom_parts (prim : List ℕ → ℚ → List ℤ) (upd : ℚ → ℚ) (md : Option ℕ)
    (fuel n : ℕ) (e : ℚ) (mp : ℕ) (st0 st3 : VState) (res : List (List ℕ))
    (h : fitFrom prim upd md fuel n e mp st0 = some (st3, res)) :
    res = extractClusters st3.arena mp ∧
    ∃ st2, fitLoop prim upd md fuel 1 e (run_dbscan_on_node prim (List.range n) e 0 st0) = some st2 ∧
      st3 = { st2 with arena := remove_child_cluster_points_from_parents st2.arena } := by
  rw [fitFrom, Option.map_eq_some'] at h
  obtain ⟨st2, hloop, hpair⟩ := h
  have h3 : st3 = { st2 with arena := remove_child_cluster_points_from_parents st2.arena } :=
    (congrArg Prod.fst hpair).symm
  have hres : res = extractClusters (remove_child_cluster_points_from_parents st2.arena) mp :=
    (congrArg Prod.snd hpair).symm
  refine ⟨?_, st2, hloop, h3⟩
  rw [hres, h3]

theorem mem_extractClusters {ar : List NodeRec} {mp : ℕ} {c : List ℕ} :
    c ∈ extractClusters ar mp ↔
      ∃ i, i ∈ descendantsByDepth ar ∧ mp ≤ (pts ar i).length ∧ pts ar i = c := by
  rw [extractClusters]
  simp only [List.mem_map, List.mem_filter, decide_eq_true_eq]
  constructor
  · rintro ⟨i, ⟨hi1, hi2⟩, hi3⟩; exact ⟨i, hi1, hi2, hi3⟩
  · rintro ⟨i, hi1, hi2, hi3⟩; exact ⟨i, ⟨hi1, hi2⟩, hi3⟩

theorem defaultUpdate_iterate (e : ℚ) : ∀ d : ℕ, defaultUpdate^[d] e = e / 2 ^ d := by
  intro d
  induction d with
  | zero => simp
  | succ d ih =>
    rw [Function.iterate_succ_apply', ih, defaultUpdate, div_div, ← pow_succ]

theorem fitLoop_terminates (prim : List ℕ → ℚ → List ℤ) (upd : ℚ → ℚ) (k : ℕ) :
    ∀ fuel d eps st, k ≤ d + fuel →
      (fitLoop prim upd (some k) fuel d eps st).isSome = true := by
  intro fuel
  induction fuel with
  | zero =>
    intro d eps st hkd
    rw [fitLoop_zero_eq]
    have hdr : depthReached (some k) d = true := by
      rw [depthReached]
      simp only [decide_eq_true_eq]
      omega
    rw [if_pos hdr]
    rfl
  | succ fuel ih =>
    intro d eps st hkd
    rw [fitLoop_succ_eq]
    by_cases hdr : depthReached (some k) d
    · rw [if_pos hdr]; rfl
    · rw [if_neg hdr]
      by_cases he : (nodesAtDepth st.arena d).isEmpty
      · rw [if_pos he]; rfl
      · rw [if_neg he]
        exact ih (d + 1) (upd eps) _ (by omega)

theorem fitFresh_terminates (prim : List ℕ → ℚ → List ℤ) (upd : ℚ → ℚ)
    (k fuel n : ℕ) (e : ℚ) (mp : ℕ) (h : k ≤ fuel) :
    (fitFresh prim upd (some k) fuel n e mp).isSome = true := by
  rw [fitFresh, fitFrom]
  have hterm := fitLoop_terminates prim upd k fuel 1 e
    (run_dbscan_on_node prim (List.range n) e 0 initState) (by omega)
  cases hcase : fitLoop prim upd (some k) fuel 1 e
      (run_dbscan_on_node prim (List.range n) e 0 initState) with
  | none => rw [hcase] at hterm; simp at hterm
  | some st2 => rfl

theorem foldl_max_init_le (l : List ℤ) : ∀ init : ℤ, init ≤ l.foldl max init := by
  induction l with
  | nil => intro init; exact le_refl init
  | cons x tl ih =>
    intro init
    rw [List.foldl_cons]
    exact le_trans (le_max_left init x) (ih (max init x))

theorem le_foldl_max (c : ℤ) : ∀ (l : List ℤ) (init : ℤ), c ∈ l → c ≤ l.foldl max init := by
  intro l
  induction l with
  | nil => intro init h; exact absurd h (by simp)
  | cons x tl ih =>
    intro init h
    rw [List.foldl_cons]
    rcases List.mem_cons.mp h with rfl | h
    · exact le_trans (le_max_right init c) (foldl_max_init_le tl _)
    · exact ih _ h

theorem le_maxLabel_of_mem {labels : List ℤ} {c : ℤ} (h : c ∈ labels) :
    c ≤ maxLabel labels :=
  le_foldl_max c labels (-1) h

/-! # The claims -/

/-- C1: for every run of `fit()` on a fresh instance with a primitive
satisfying the section-6 contract, the returned clusters are pairwise
disjoint; moreover, in the resolved tree every node's points are disjoint
from each of its descendants' points, and any two distinct non-root nodes
have disjoint points (so each point index survives in at most one node). -/
theorem claim_C1_disjointness (prim : List ℕ → ℚ → List ℤ) (upd : ℚ → ℚ)
    (md : Option ℕ) (fuel n : ℕ) (e : ℚ) (mp : ℕ) (st3 : VState)
    (res : List (List ℕ)) (hc : PrimContract prim)
    (h : fitFresh prim upd md fuel n e mp = some (st3, res)) :
    res.Pairwise (fun s t => ∀ x ∈ s, x ∉ t) ∧
    (∀ i j, j ∈ ancList st3.arena i → ∀ x ∈ pts st3.arena i, x ∉ pts st3.arena j) ∧
    (∀ a b, a ≠ 0 → a < st3.arena.length → b ≠ 0 → b < st3.arena.length → a ≠ b →
      ∀ x ∈ pts st3.arena a, x ∉ pts st3.arena b) := by
  have hLen : ∀ l e', (prim l e').length = l.length := fun l e' => (hc l e').1
  obtain ⟨st2, d', hd1, hInv, hCalls, harena, hres, hcalls, hcount, hbound⟩ :=
    fitFresh_spec prim upd md fuel n e mp st3 res hLen h
  have hwf := hInv.1
  have hinc := hInv.2.1
  have hanc3 : ∀ i, ancList st3.arena i = ancList st2.arena i := by
    intro i
    rw [harena, remove_child_cluster_points_from_parents, ancList_resolve]
  have hlen3 : st3.arena.length = st2.arena.length := by
    rw [harena, remove_child_cluster_points_from_parents, length_resolve]
  refine ⟨?_, ?_, ?_⟩
  · rw [hres, harena]
    exact extract_pairwise_disjoint st2.arena hwf hinc mp
  · intro i j hj x hxi hxj
    rw [hanc3 i] at hj
    rw [harena] at hxi hxj
    exact resolved_desc_disjoint st2.arena hwf i j hj x hxi hxj
  · intro a b ha halt hb hblt hab x hxa hxb
    rw [hlen3] at halt hblt
    rw [harena] at hxa hxb
    exact resolved_disjoint st2.arena hwf hinc a b ha halt hb hblt hab x hxa hxb

/-- Witness for C1 at a concrete contract-satisfying primitive and run. -/
theorem claim_C1_disjointness_witness :
    PrimContract allNoise ∧
    fitFresh allNoise id none 0 3 1 2 =
      some (⟨[⟨[], none, 0⟩], 1, [⟨[0, 1, 2], 1, 0⟩]⟩, []) ∧
    (([] : List (List ℕ)).Pairwise (fun s t => ∀ x ∈ s, x ∉ t) ∧
     (∀ i j, j ∈ ancList [(⟨[], none, 0⟩ : NodeRec)] i →
       ∀ x ∈ pts [(⟨[], none, 0⟩ : NodeRec)] i, x ∉ pts [(⟨[], none, 0⟩ : NodeRec)] j) ∧
     (∀ a b, a ≠ 0 → a < ([(⟨[], none, 0⟩ : NodeRec)]).length → b ≠ 0 →
       b < ([(⟨[], none, 0⟩ : NodeRec)]).length → a ≠ b →
       ∀ x ∈ pts [(⟨[], none, 0⟩ : NodeRec)] a, x ∉ pts [(⟨[], none, 0⟩ : NodeRec)] b)) :=
  ⟨primContract_allNoise, rfl,
    claim_C1_disjointness allNoise id none 0 3 1 2
      ⟨[⟨[], none, 0⟩], 1, [⟨[0, 1, 2], 1, 0⟩]⟩ [] primContract_allNoise rfl⟩

/-- C2: every cluster returned by `fit()` has at least `min_points`
elements, and the number of returned clusters is exactly the number of
non-root nodes whose post-resolution points meet the threshold (the
others are dropped entirely). -/
theorem claim_C2_size_floor (prim : List ℕ → ℚ → List ℤ) (upd : ℚ → ℚ)
    (md : Option ℕ) (fuel n : ℕ) (e : ℚ) (mp : ℕ) (st3 : VState)
    (res : List (List ℕ))
    (h : fitFresh prim upd md fuel n e mp = some (st3, res)) :
    (∀ c ∈ res, mp ≤ c.length) ∧
    res.length = ((nonRootIndices st3.arena).filter
      (fun i => mp ≤ (pts st3.arena i).length)).length := by
  obtain ⟨hres, -⟩ := fitFrom_parts prim upd md fuel n e mp initState st3 res h
  constructor
  · intro c hcm
    rw [hres] at hcm
    obtain ⟨i, -, hle, hpts⟩ := mem_extractClusters.mp hcm
    rw [← hpts]
    exact hle
  · rw [hres, extractClusters, List.length_map]
    have hperm : ((descendantsByDepth st3.arena).filter
        (fun i => mp ≤ (pts st3.arena i).length)).Perm
        ((nonRootIndices st3.arena).filter (fun i => mp ≤ (pts st3.arena i).length)) :=
      (perm_sortByDesc (depthOf st3.arena) (nonRootIndices st3.arena)).filter _
    exact hperm.length_eq

/-- Witness for C2 at a concrete run returning one cluster of size 3. -/
theorem claim_C2_size_floor_witness :
    fitFresh oneCluster id (some 1) 1 3 1 2 =
      some (⟨[⟨[], none, 0⟩, ⟨[0, 1, 2], some 0, 1⟩], 1, [⟨[0, 1, 2], 1, 0⟩]⟩, [[0, 1, 2]]) ∧
    ((∀ c ∈ [[0, 1, 2]], 2 ≤ c.length) ∧
     ([[0, 1, 2]] : List (List ℕ)).length =
       ((nonRootIndices [⟨[], none, 0⟩, ⟨[0, 1, 2], some 0, 1⟩]).filter
         (fun i => 2 ≤ (pts [⟨[], none, 0⟩, ⟨[0, 1, 2], some 0, 1⟩] i).length)).length) :=
  ⟨rfl, claim_C2_size_floor oneCluster id (some 1) 1 3 1 2
    ⟨[⟨[], none, 0⟩, ⟨[0, 1, 2], some 0, 1⟩], 1, [⟨[0, 1, 2], 1, 0⟩]⟩ [[0, 1, 2]] rfl⟩

/-- C3: the list returned by `fit()` is the image of an index list whose
source depths are non-increasing (ties in depth are not constrained). -/
theorem claim_C3_depth_ordering (prim : List ℕ → ℚ → List ℤ) (upd : ℚ → ℚ)
    (md : Option ℕ) (fuel n : ℕ) (e : ℚ) (mp : ℕ) (st3 : VState)
    (res : List (List ℕ))
    (h : fitFresh prim upd md fuel n e mp = some (st3, res)) :
    ∃ idxs : List ℕ, res = idxs.map (fun i => pts st3.arena i) ∧
      idxs.Pairwise (fun a b => depthOf st3.arena b ≤ depthOf st3.arena a) ∧
      (∀ i ∈ idxs, i ≠ 0 ∧ i < st3.arena.length) := by
  obtain ⟨hres, -⟩ := fitFrom_parts prim upd md fuel n e mp initState st3 res h
  refine ⟨(descendantsByDepth st3.arena).filter
    (fun i => mp ≤ (pts st3.arena i).length), ?_, ?_, ?_⟩
  · rw [hres, extractClusters]
  · exact List.Pairwise.sublist (List.filter_sublist _)
      (pairwise_sortByDesc (depthOf st3.arena) (nonRootIndices st3.arena))
  · intro i hi
    exact mem_descendantsByDepth.mp (List.mem_filter.mp hi).1

/-- Witness for C3 at the same concrete run as C2. -/
theorem claim_C3_depth_ordering_witness :
    fitFresh oneCluster id (some 1) 1 3 1 2 =
      some (⟨[⟨[], none, 0⟩, ⟨[0, 1, 2], some 0, 1⟩], 1, [⟨[0, 1, 2], 1, 0⟩]⟩, [[0, 1, 2]]) ∧
    (∃ idxs : List ℕ,
      ([[0, 1, 2]] : List (List ℕ)) =
        idxs.map (fun i => pts [⟨[], none, 0⟩, ⟨[0, 1, 2], some 0, 1⟩] i) ∧
      idxs.Pairwise (fun a b => depthOf [⟨[], none, 0⟩, ⟨[0, 1, 2], some 0, 1⟩] b ≤
        depthOf [⟨[], none, 0⟩, ⟨[0, 1, 2], some 0, 1⟩] a) ∧
      (∀ i ∈ idxs, i ≠ 0 ∧ i < ([⟨[], none, 0⟩, ⟨[0, 1, 2], some 0, 1⟩] : List NodeRec).length)) :=
  ⟨rfl, claim_C3_depth_ordering oneCluster id (some 1) 1 3 1 2
    ⟨[⟨[], none, 0⟩, ⟨[0, 1, 2], some 0, 1⟩], 1, [⟨[0, 1, 2], 1, 0⟩]⟩ [[0, 1, 2]] rfl⟩

/-- C4: in any completed run of `fit()`, every primitive invocation on a
node of depth `d` used the radius `update^[d] e`; invocations on nodes one
level deeper used one more application of `update`, and with the default
update the depth-`d` radius is `e / 2 ^ d`. -/
theorem claim_C4_radius (prim : List ℕ → ℚ → List ℤ) (upd : ℚ → ℚ)
    (md : Option ℕ) (fuel n : ℕ) (e : ℚ) (mp : ℕ) (st3 : VState)
    (res : List (List ℕ)) (hc : PrimContract prim)
    (h : fitFresh prim upd md fuel n e mp = some (st3, res)) :
    (∀ c ∈ st3.calls, c.parent < st3.arena.length ∧
      c.eps = upd^[depthOf st3.arena c.parent] e) ∧
    (∀ c ∈ st3.calls, ∀ c' ∈ st3.calls,
      depthOf st3.arena c'.parent = depthOf st3.arena c.parent + 1 →
      c'.eps = upd c.eps) ∧
    (upd = defaultUpdate →
      ∀ c ∈ st3.calls, c.eps = e / 2 ^ (depthOf st3.arena c.parent)) := by
  have hLen : ∀ l e', (prim l e').length = l.length := fun l e' => (hc l e').1
  obtain ⟨st2, d', hd1, hInv, hCalls, harena, hres, hcalls, hcount, hbound⟩ :=
    fitFresh_spec prim upd md fuel n e mp st3 res hLen h
  have hdep3 : ∀ i, depthOf st3.arena i = depthOf st2.arena i := by
    intro i
    rw [harena, remove_child_cluster_points_from_parents, depthOf_resolve]
  have hlen3 : st3.arena.length = st2.arena.length := by
    rw [harena, remove_child_cluster_points_from_parents, length_resolve]
  have base : ∀ c ∈ st3.calls, c.parent < st3.arena.length ∧
      c.eps = upd^[depthOf st3.arena c.parent] e := by
    intro c hcm
    rw [hcalls] at hcm
    obtain ⟨h1, h2, -⟩ := hCalls c hcm
    exact ⟨by rw [hlen3]; exact h1, by rw [hdep3]; exact h2⟩
  refine ⟨base, ?_, ?_⟩
  · intro c hcm c' hcm' hstep
    rw [(base c' hcm').2, (base c hcm).2, hstep, Function.iterate_succ_apply']
  · intro hupd c hcm
    rw [(base c hcm).2, hupd, defaultUpdate_iterate]

/-- Witness for C4 at a concrete run with the default update function. -/
theorem claim_C4_radius_witness :
    PrimContract allNoise ∧
    fitFresh allNoise defaultUpdate none 0 3 1 2 =
      some (⟨[⟨[], none, 0⟩], 1, [⟨[0, 1, 2], 1, 0⟩]⟩, []) ∧
    ((∀ c ∈ [(⟨[0, 1, 2], 1, 0⟩ : CallRec)],
        c.parent < ([(⟨[], none, 0⟩ : NodeRec)]).length ∧
        c.eps = defaultUpdate^[depthOf [(⟨[], none, 0⟩ : NodeRec)] c.parent] 1) ∧
     (∀ c ∈ [(⟨[0, 1, 2], 1, 0⟩ : CallRec)], ∀ c' ∈ [(⟨[0, 1, 2], 1, 0⟩ : CallRec)],
        depthOf [(⟨[], none, 0⟩ : NodeRec)] c'.parent =
          depthOf [(⟨[], none, 0⟩ : NodeRec)] c.parent + 1 →
        c'.eps = defaultUpdate c.eps) ∧
     (defaultUpdate = defaultUpdate →
       ∀ c ∈ [(⟨[0, 1, 2], 1, 0⟩ : CallRec)],
         c.eps = 1 / 2 ^ (depthOf [(⟨[], none, 0⟩ : NodeRec)] c.parent))) :=
  ⟨primContract_allNoise, rfl,
    claim_C4_radius allNoise defaultUpdate none 0 3 1 2
      ⟨[⟨[], none, 0⟩], 1, [⟨[0, 1, 2], 1, 0⟩]⟩ [] primContract_allNoise rfl⟩

/-- C5 (amended): for every `k ≥ 1` and every update function,
`fit(max_depth = k)` terminates (fuel `k` suffices), builds no node deeper
than `k`, and never invokes the primitive on a node of depth `≥ k`.  For
`k = 0` termination still holds but the initial invocation on the root
(depth `0`) is performed before the bound is checked and attaches depth-1
children — see the counterexample and C10. -/
theorem claim_C5_amended (prim : List ℕ → ℚ → List ℤ) (upd : ℚ → ℚ)
    (k fuel n : ℕ) (e : ℚ) (mp : ℕ) (hc : PrimContract prim)
    (hk : 1 ≤ k) (hfuel : k ≤ fuel) :
    (fitFresh prim upd (some k) fuel n e mp).isSome = true ∧
    (∀ st3 res, fitFresh prim upd (some k) fuel n e mp = some (st3, res) →
      (∀ nd ∈ st3.arena, nd.depth ≤ k) ∧
      (∀ c ∈ st3.calls, depthOf st3.arena c.parent < k)) := by
  have hLen : ∀ l e', (prim l e').length = l.length := fun l e' => (hc l e').1
  refine ⟨fitFresh_terminates prim upd k fuel n e mp hfuel, ?_⟩
  intro st3 res h
  obtain ⟨st2, d', hd1, hInv, hCalls, harena, hres, hcalls, hcount, hbound⟩ :=
    fitFresh_spec prim upd (some k) fuel n e mp st3 res hLen h
  have hdk : d' ≤ k := hbound k rfl hk
  have hdep3 : ∀ i, depthOf st3.arena i = depthOf st2.arena i := by
    intro i
    rw [harena, remove_child_cluster_points_from_parents, depthOf_resolve]
  have hlen3 : st3.arena.length = st2.arena.length := by
    rw [harena, remove_child_cluster_points_from_parents, length_resolve]
  constructor
  · intro nd hnd
    obtain ⟨i, hi, hget⟩ := List.mem_iff_getElem.mp hnd
    have : depthOf st3.arena i ≤ k := by
      rw [hdep3 i]
      exact le_trans (hInv.2.2.2 i (by omega)) hdk
    rw [depthOf, List.getD_eq_getElem st3.arena dummyNode hi, hget] at this
    exact this
  · intro c hcm
    rw [hcalls] at hcm
    obtain ⟨h1, -, h3⟩ := hCalls c hcm
    rw [hdep3]
    rcases h3 with h3 | h3
    · omega
    · rw [depthReached] at h3
      simp only [decide_eq_false_iff_not] at h3
      omega

/-- Witness for C5 at `k = 2`. -/
theorem claim_C5_amended_witness :
    PrimContract allNoise ∧ 1 ≤ 2 ∧ 2 ≤ 2 ∧
    ((fitFresh allNoise defaultUpdate (some 2) 2 3 1 2).isSome = true ∧
     (∀ st3 res, fitFresh allNoise defaultUpdate (some 2) 2 3 1 2 = some (st3, res) →
       (∀ nd ∈ st3.arena, nd.depth ≤ 2) ∧
       (∀ c ∈ st3.calls, depthOf st3.arena c.parent < 2))) :=
  ⟨primContract_allNoise, by omega, by omega,
    claim_C5_amended allNoise defaultUpdate 2 2 3 1 2 primContract_allNoise
      (by omega) (by omega)⟩

/-- Counterexample to C5 as stated: with `max_depth = 0` the code still
performs the initial primitive invocation on the root (a node at depth
`0 ≥ k`) and attaches children at depth `1 > k`: on three points with a
primitive that clusters everything, the run returns an arena with node
depths `[0, 1]` and one logged call whose parent is the root. -/
theorem claim_C5_counterexample :
    (fitFresh oneCluster defaultUpdate (some 0) 10 3 1 1).map
      (fun p => (p.1.arena.map NodeRec.depth, p.1.dbscan_performed,
        p.1.calls.map CallRec.parent)) = some ([0, 1], 1, [0]) ∧
    ¬ (∀ st3 res, fitFresh oneCluster defaultUpdate (some 0) 10 3 1 1 = some (st3, res) →
        ∀ nd ∈ st3.arena, nd.depth ≤ 0) := by
  constructor
  · decide
  · intro hall
    have h2 := hall ⟨[⟨[], none, 0⟩, ⟨[0, 1, 2], some 0, 1⟩], 1, [⟨[0, 1, 2], 1, 0⟩]⟩
      [[0, 1, 2]] rfl ⟨[0, 1, 2], some 0, 1⟩ (by decide)
    exact absurd h2 (by decide)

/-- C7: given the pre-resolution nesting invariant, the resolution pass
yields the same tree for every processing order of the non-root nodes —
in particular the same tree as the deepest-first order the code uses —
and subtracting one node from all its ancestors is idempotent.  (The
proof shows order independence holds for any well-formed arena; the
nesting hypothesis of the claim is not even needed.) -/
theorem claim_C7_order_independence (ar : List NodeRec) (o1 o2 : List ℕ)
    (hwf : WFA ar) (hnest : NestedPts ar)
    (h1 : CompleteOrder ar o1) (h2 : CompleteOrder ar o2) :
    resolve ar o1 = resolve ar o2 ∧
    resolve ar o1 = remove_child_cluster_points_from_parents ar ∧
    (∀ i, subtractFromAncestors (subtractFromAncestors ar i) i = subtractFromAncestors ar i) := by
  have hiff : ∀ (oa ob : List ℕ), CompleteOrder ar oa → CompleteOrder ar ob →
      ∀ d, d ∈ oa ↔ d ∈ ob := by
    intro oa ob ha hb d
    constructor
    · intro hd
      obtain ⟨hd0, hdlt⟩ := ha.1 d hd
      exact hb.2 d hdlt hd0
    · intro hd
      obtain ⟨hd0, hdlt⟩ := hb.1 d hd
      exact ha.2 d hdlt hd0
  refine ⟨resolve_congr_order ar hwf o1 o2 (hiff o1 o2 h1 h2), ?_,
    fun i => subtractFromAncestors_idem ar hwf i⟩
  rw [remove_child_cluster_points_from_parents]
  exact resolve_congr_order ar hwf o1 (descendantsByDepth ar)
    (hiff o1 (descendantsByDepth ar) h1 (completeOrder_descendantsByDepth ar))

/-- Witness for C7 on a concrete nested three-node chain and two orders. -/
theorem claim_C7_order_independence_witness :
    WFA [⟨[1, 2], none, 0⟩, ⟨[1, 2], some 0, 1⟩, ⟨[2], some 1, 2⟩] ∧
    NestedPts [⟨[1, 2], none, 0⟩, ⟨[1, 2], some 0, 1⟩, ⟨[2], some 1, 2⟩] ∧
    CompleteOrder [⟨[1, 2], none, 0⟩, ⟨[1, 2], some 0, 1⟩, ⟨[2], some 1, 2⟩] [1, 2] ∧
    CompleteOrder [⟨[1, 2], none, 0⟩, ⟨[1, 2], some 0, 1⟩, ⟨[2], some 1, 2⟩] [2, 1] ∧
    (resolve [⟨[1, 2], none, 0⟩, ⟨[1, 2], some 0, 1⟩, ⟨[2], some 1, 2⟩] [1, 2] =
       resolve [⟨[1, 2], none, 0⟩, ⟨[1, 2], some 0, 1⟩, ⟨[2], some 1, 2⟩] [2, 1] ∧
     resolve [⟨[1, 2], none, 0⟩, ⟨[1, 2], some 0, 1⟩, ⟨[2], some 1, 2⟩] [1, 2] =
       remove_child_cluster_points_from_parents
         [⟨[1, 2], none, 0⟩, ⟨[1, 2], some 0, 1⟩, ⟨[2], some 1, 2⟩] ∧
     (∀ i, subtractFromAncestors (subtractFromAncestors
         [⟨[1, 2], none, 0⟩, ⟨[1, 2], some 0, 1⟩, ⟨[2], some 1, 2⟩] i) i =
       subtractFromAncestors [⟨[1, 2], none, 0⟩, ⟨[1, 2], some 0, 1⟩, ⟨[2], some 1, 2⟩] i)) :=
  ⟨by unfold WFA; decide, by unfold NestedPts; decide,
   by unfold CompleteOrder; decide, by unfold CompleteOrder; decide,
   claim_C7_order_independence [⟨[1, 2], none, 0⟩, ⟨[1, 2], some 0, 1⟩, ⟨[2], some 1, 2⟩]
     [1, 2] [2, 1] (by unfold WFA; decide) (by unfold NestedPts; decide)
     (by unfold CompleteOrder; decide) (by unfold CompleteOrder; decide)⟩

/-- C8 (amended): `fit()` is a deterministic function of the primitive,
the parameters, and the instance state — two calls from equal states give
identical results, and a fresh instance is exactly `initState`.  However
`fit()` does not reset the tree or the invocation counter, so a second
call on the same instance starts from the mutated state (see the
counterexample). -/
theorem claim_C8_determinism_amended (prim : List ℕ → ℚ → List ℤ) (upd : ℚ → ℚ)
    (md : Option ℕ) (fuel n : ℕ) (e : ℚ) (mp : ℕ) (s t : VState) (h : s = t) :
    fitFrom prim upd md fuel n e mp s = fitFrom prim upd md fuel n e mp t ∧
    fitFresh prim upd md fuel n e mp = fitFrom prim upd md fuel n e mp initState := by
  subst h
  exact ⟨rfl, rfl⟩

/-- Witness for the amended C8. -/
theorem claim_C8_determinism_amended_witness :
    initState = initState ∧
    (fitFrom shrinkingPrim defaultUpdate none 10 3 2 1 initState =
       fitFrom shrinkingPrim defaultUpdate none 10 3 2 1 initState ∧
     fitFresh shrinkingPrim defaultUpdate none 10 3 2 1 =
       fitFrom shrinkingPrim defaultUpdate none 10 3 2 1 initState) :=
  ⟨rfl, claim_C8_determinism_amended shrinkingPrim defaultUpdate none 10 3 2 1
    initState initState rfl⟩

/-- Counterexample to C8 as stated: with a deterministic primitive
(`shrinkingPrim`, which depends only on the handed-over subset), a first
`fit()` on a fresh 3-point instance returns `[[0], [1]]` with 3 primitive
invocations, but a second `fit()` on the same instance returns
`[[0], [0], [1], [1]]` with the counter at 8: the tree and the counter
are not discarded between runs. -/
theorem claim_C8_counterexample :
    (fitFresh shrinkingPrim defaultUpdate none 10 3 2 1).map
      (fun p => (p.2, p.1.dbscan_performed)) = some ([[0], [1]], 3) ∧
    ((fitFresh shrinkingPrim defaultUpdate none 10 3 2 1).bind
      (fun p => fitFrom shrinkingPrim defaultUpdate none 10 3 2 1 p.1)).map
      (fun p => (p.2, p.1.dbscan_performed)) = some ([[0], [0], [1], [1]], 8) ∧
    ([[0], [1]] : List (List ℕ)) ≠ [[0], [0], [1], [1]] := by
  refine ⟨by decide, by decide, by decide⟩

/-- C9: construction fails with an "InvalidParameter" condition exactly
when the minimum-neighbor count is not a positive integer (a dynamic
value with denominator 1), and otherwise succeeds with a fresh state in
which no clustering work has been performed. -/
theorem claim_C9_validation (mp : ℚ) :
    ((∃ st, mkVariousDBSCAN mp = Except.ok st ∧ st.dbscan_performed = 0 ∧
        st.calls = [] ∧ st.arena = [{ points := [], parent := none, depth := 0 }]) ↔
      (mp.den = 1 ∧ 0 < mp)) ∧
    ((mkVariousDBSCAN mp = Except.error "InvalidParameter") ↔ ¬ (mp.den = 1 ∧ 0 < mp)) := by
  rw [mkVariousDBSCAN]
  by_cases hc : mp.den = 1 ∧ 0 < mp
  · rw [if_pos hc]
    constructor
    · constructor
      · intro _; exact hc
      · intro _; exact ⟨initState, rfl, rfl, rfl, rfl⟩
    · constructor
      · intro he; cases he
      · intro hn; exact absurd hc hn
  · rw [if_neg hc]
    constructor
    · constructor
      · rintro ⟨st, hst, -⟩; cases hst
      · intro hcc; exact absurd hcc hc
    · constructor
      · intro _; exact hc
      · intro _; rfl

/-- C10: for every primitive, update function, fuel and parameters,
`fit(max_depth = 0)` still performs the initial primitive invocation on
the full point set under the root before the depth bound is checked
(counter 1, exactly one logged call on node 0 with the original radius,
and every non-root node a depth-1 child of the root); concretely, with a
primitive clustering all points it returns the non-empty depth-1 cluster
`[0, 1, 2]`. -/
theorem claim_C10_initial_run :
    (∀ (prim : List ℕ → ℚ → List ℤ) (upd : ℚ → ℚ) (fuel n : ℕ) (e : ℚ) (mp : ℕ),
      ∃ st3 res, fitFresh prim upd (some 0) fuel n e mp = some (st3, res) ∧
        st3.dbscan_performed = 1 ∧
        st3.calls = [{ points_idx := List.range n, eps := e, parent := 0 }] ∧
        (∀ j, 1 ≤ j → j < st3.arena.length →
          parentOf st3.arena j = some 0 ∧ depthOf st3.arena j = 1)) ∧
    (fitFresh oneCluster defaultUpdate (some 0) 10 3 1 1).map Prod.snd =
      some [[0, 1, 2]] := by
  constructor
  · intro prim upd fuel n e mp
    set st1 := run_dbscan_on_node prim (List.range n) e 0 initState with hst1
    have hdr : depthReached (some 0) 1 = true := rfl
    have hloop : fitLoop prim upd (some 0) fuel 1 e st1 = some st1 := by
      cases fuel with
      | zero => rw [fitLoop_zero_eq, if_pos hdr]
      | succ fuel => rw [fitLoop_succ_eq, if_pos hdr]
    refine ⟨{ st1 with arena := remove_child_cluster_points_from_parents st1.arena },
      extractClusters (remove_child_cluster_points_from_parents st1.arena) mp, ?_, ?_, ?_, ?_⟩
    · rw [fitFresh, fitFrom, ← hst1, hloop]
      rfl
    · rfl
    · rfl
    · intro j h1 hlt
      simp only at hlt ⊢
      have hlen : (remove_child_cluster_points_from_parents st1.arena).length =
          st1.arena.length := by
        rw [remove_child_cluster_points_from_parents, length_resolve]
      rw [hlen] at hlt
      have hpar : parentOf st1.arena j = some 0 ∧ depthOf st1.arena j = 1 := by
        have hj1 : initState.arena.length ≤ j := h1
        have hc : j - initState.arena.length <
            (maxLabel (prim (List.range n) e) + 1).toNat := by
          rw [hst1, run_arena, List.length_append, length_newChildren] at hlt
          have : initState.arena.length = 1 := rfl
          omega
        constructor
        · rw [hst1, run_arena, parentOf,
            getD_append_right initState.arena _ j dummyNode hj1,
            getD_newChildren initState.arena (List.range n) (prim (List.range n) e) 0
              (j - initState.arena.length) hc]
        · rw [hst1, run_arena, depthOf,
            getD_append_right initState.arena _ j dummyNode hj1,
            getD_newChildren initState.arena (List.range n) (prim (List.range n) e) 0
              (j - initState.arena.length) hc]
          rfl
      constructor
      · rw [remove_child_cluster_points_from_parents, parentOf_resolve]
        exact hpar.1
      · rw [remove_child_cluster_points_from_parents, depthOf_resolve]
        exact hpar.2
  · decide

/-- Under the contract, the non-negative labels used are exactly
`0 .. max`, so their number is `max + 1`. -/
theorem labels_nonneg_card (labels : List ℤ)
    (hcontig : ∀ c : ℤ, 0 ≤ c → c ≤ maxLabel labels → c ∈ labels) :
    (labels.toFinset.filter (fun c => 0 ≤ c)).card = (maxLabel labels + 1).toNat := by
  have himg : labels.toFinset.filter (fun c => 0 ≤ c) =
      (Finset.range (maxLabel labels + 1).toNat).image Int.ofNat := by
    ext c
    rw [Finset.mem_filter, Finset.mem_image, List.mem_toFinset]
    constructor
    · rintro ⟨hmem, hpos⟩
      have hle : c ≤ maxLabel labels := le_maxLabel_of_mem hmem
      refine ⟨c.toNat, Finset.mem_range.mpr (by omega),
        by simp only [Int.ofNat_eq_coe]; omega⟩
    · rintro ⟨m, hm, rfl⟩
      rw [Finset.mem_range] at hm
      have h0 : (0 : ℤ) ≤ Int.ofNat m := by simp only [Int.ofNat_eq_coe]; omega
      have hle : Int.ofNat m ≤ maxLabel labels := by
        simp only [Int.ofNat_eq_coe]; omega
      exact ⟨hcontig (Int.ofNat m) h0 hle, h0⟩
  rw [himg, Finset.card_image_of_injective _ (fun a b h => Int.ofNat.inj h),
    Finset.card_range]

/-- C6: one invocation of `run_dbscan_on_node` increments the counter by
one and attaches, under the given parent, exactly one child per distinct
non-negative label in the primitive's output; each child owns exactly the
original (un-remapped) indices whose local label matches; labels with no
members produce no child (the labels used form a contiguous block by the
contract); and noise-labelled points land in no child. -/
theorem claim_C6_wrapper (prim : List ℕ → ℚ → List ℤ) (pidx : List ℕ) (eps : ℚ)
    (p : ℕ) (st : VState)
    (hlab : (prim pidx eps).length = pidx.length)
    (hcontig : ∀ c : ℤ, 0 ≤ c → c ≤ maxLabel (prim pidx eps) → c ∈ prim pidx eps)
    (hnd : pidx.Nodup) :
    (run_dbscan_on_node prim pidx eps p st).dbscan_performed = st.dbscan_performed + 1 ∧
    (run_dbscan_on_node prim pidx eps p st).arena.length =
      st.arena.length + ((prim pidx eps).toFinset.filter (fun c => 0 ≤ c)).card ∧
    (∀ j, st.arena.length ≤ j → j < (run_dbscan_on_node prim pidx eps p st).arena.length →
      parentOf (run_dbscan_on_node prim pidx eps p st).arena j = some p ∧
      ∃ c : ℤ, 0 ≤ c ∧ c ∈ prim pidx eps ∧
        ∀ x, (x ∈ pts (run_dbscan_on_node prim pidx eps p st).arena j ↔
          ∃ k, k < pidx.length ∧ (prim pidx eps).getD k (-1) = c ∧ pidx.getD k 0 = x)) ∧
    (∀ c : ℤ, 0 ≤ c → c ∈ prim pidx eps →
      ∃! j, st.arena.length ≤ j ∧
        j < (run_dbscan_on_node prim pidx eps p st).arena.length ∧
        pts (run_dbscan_on_node prim pidx eps p st).arena j =
          originalIdx pidx (prim pidx eps) c) ∧
    (∀ k, k < pidx.length → (prim pidx eps).getD k (-1) = -1 →
      ∀ j, st.arena.length ≤ j →
        j < (run_dbscan_on_node prim pidx eps p st).arena.length →
        pidx.getD k 0 ∉ pts (run_dbscan_on_node prim pidx eps p st).arena j) := by
  set labels := prim pidx eps with hlabels
  have hlen' : (run_dbscan_on_node prim pidx eps p st).arena.length =
      st.arena.length + (maxLabel labels + 1).toNat := by
    rw [run_arena, List.length_append, length_newChildren]
  have hptsj : ∀ j, st.arena.length ≤ j →
      j < (run_dbscan_on_node prim pidx eps p st).arena.length →
      pts (run_dbscan_on_node prim pidx eps p st).arena j =
        originalIdx pidx labels (Int.ofNat (j - st.arena.length)) := by
    intro j h1 h2
    rw [run_arena]
    exact pts_new_child st.arena pidx labels p j h1 (by rw [hlen'] at h2; omega)
  refine ⟨rfl, ?_, ?_, ?_, ?_⟩
  · rw [hlen', labels_nonneg_card labels hcontig]
  · intro j h1 h2
    have hc : j - st.arena.length < (maxLabel labels + 1).toNat := by
      rw [hlen'] at h2; omega
    constructor
    · rw [run_arena, parentOf, getD_append_right st.arena _ j dummyNode h1,
        getD_newChildren st.arena pidx labels p (j - st.arena.length) hc]
    · refine ⟨Int.ofNat (j - st.arena.length),
        by simp only [Int.ofNat_eq_coe]; omega, ?_, ?_⟩
      · exact hcontig _ (by simp only [Int.ofNat_eq_coe]; omega)
          (by simp only [Int.ofNat_eq_coe]; omega)
      · intro x
        rw [hptsj j h1 h2, mem_originalIdx, hlab]
  · intro c hc0 hcm
    have hcle : c ≤ maxLabel labels := le_maxLabel_of_mem hcm
    have hctn : c.toNat < (maxLabel labels + 1).toNat := by omega
    refine ⟨st.arena.length + c.toNat, ⟨by omega, by omega, ?_⟩, ?_⟩
    · rw [hptsj (st.arena.length + c.toNat) (by omega) (by omega)]
      congr 1
      simp only [Int.ofNat_eq_coe]
      omega
    · rintro j ⟨h1, h2, h3⟩
      rw [hptsj j h1 h2] at h3
      by_cases hcc : Int.ofNat (j - st.arena.length) = c
      · simp only [Int.ofNat_eq_coe] at hcc
        omega
      · exfalso
        obtain ⟨k, hk, hke⟩ := List.mem_iff_getElem.mp hcm
        have hkd : labels.getD k (-1) = c := by
          rw [List.getD_eq_getElem labels (-1) hk, hke]
        have hx : pidx.getD k 0 ∈ originalIdx pidx labels c :=
          mem_originalIdx.mpr ⟨k, hk, hkd, rfl⟩
        rw [← h3] at hx
        obtain ⟨k', hk', hkc', hkx'⟩ := mem_originalIdx.mp hx
        have hkk : k ≠ k' := by
          intro he
          rw [← he] at hkc'
          rw [hkd] at hkc'
          exact hcc hkc'.symm
        have hkp : k < pidx.length := by rw [← hlab]; exact hk
        have hkp' : k' < pidx.length := by rw [← hlab]; exact hk'
        have hxeq : pidx.getD k' 0 = pidx.getD k 0 := hkx'
        rw [List.getD_eq_getElem pidx 0 hkp', List.getD_eq_getElem pidx 0 hkp] at hxeq
        exact hkk (hnd.getElem_inj_iff.mp hxeq.symm)
  · intro k hk hkn j h1 h2 hmem
    rw [hptsj j h1 h2, mem_originalIdx] at hmem
    obtain ⟨k', hk', hkc', hkx'⟩ := hmem
    have hkk : k ≠ k' := by
      intro he
      rw [← he] at hkc'
      rw [hkn] at hkc'
      simp only [Int.ofNat_eq_coe] at hkc'
      omega
    have hkp' : k' < pidx.length := by rw [← hlab]; exact hk'
    have hx : pidx.getD k 0 = pidx.getD k' 0 := hkx'.symm
    rw [List.getD_eq_getElem pidx 0 hk, List.getD_eq_getElem pidx 0 hkp'] at hx
    exact hkk (hnd.getElem_inj_iff.mp hx)

theorem shrinkingPrim_contig : ∀ c : ℤ, 0 ≤ c →
    c ≤ maxLabel (shrinkingPrim [5, 7, 9] 1) → c ∈ shrinkingPrim [5, 7, 9] 1 := by
  intro c h0 hm
  have hmax : maxLabel (shrinkingPrim [5, 7, 9] 1) = 0 := by decide
  rw [hmax] at hm
  have hc0 : c = 0 := by omega
  subst hc0
  decide

/-- Witness for C6: one wrapper invocation on three points with labels
`[0, 0, -1]`. -/
theorem claim_C6_wrapper_witness :
    (shrinkingPrim [5, 7, 9] 1).length = ([5, 7, 9] : List ℕ).length ∧
    (∀ c : ℤ, 0 ≤ c → c ≤ maxLabel (shrinkingPrim [5, 7, 9] 1) →
      c ∈ shrinkingPrim [5, 7, 9] 1) ∧
    ([5, 7, 9] : List ℕ).Nodup ∧
    ((run_dbscan_on_node shrinkingPrim [5, 7, 9] 1 0 initState).dbscan_performed =
        initState.dbscan_performed + 1 ∧
     (run_dbscan_on_node shrinkingPrim [5, 7, 9] 1 0 initState).arena.length =
        initState.arena.length +
          ((shrinkingPrim [5, 7, 9] 1).toFinset.filter (fun c => 0 ≤ c)).card ∧
     (∀ j, initState.arena.length ≤ j →
        j < (run_dbscan_on_node shrinkingPrim [5, 7, 9] 1 0 initState).arena.length →
        parentOf (run_dbscan_on_node shrinkingPrim [5, 7, 9] 1 0 initState).arena j = some 0 ∧
        ∃ c : ℤ, 0 ≤ c ∧ c ∈ shrinkingPrim [5, 7, 9] 1 ∧
          ∀ x, (x ∈ pts (run_dbscan_on_node shrinkingPrim [5, 7, 9] 1 0 initState).arena j ↔
            ∃ k, k < ([5, 7, 9] : List ℕ).length ∧
              (shrinkingPrim [5, 7, 9] 1).getD k (-1) = c ∧
              ([5, 7, 9] : List ℕ).getD k 0 = x)) ∧
     (∀ c : ℤ, 0 ≤ c → c ∈ shrinkingPrim [5, 7, 9] 1 →
        ∃! j, initState.arena.length ≤ j ∧
          j < (run_dbscan_on_node shrinkingPrim [5, 7, 9] 1 0 initState).arena.length ∧
          pts (run_dbscan_on_node shrinkingPrim [5, 7, 9] 1 0 initState).arena j =
            originalIdx [5, 7, 9] (shrinkingPrim [5, 7, 9] 1) c) ∧
     (∀ k, k < ([5, 7, 9] : List ℕ).length →
        (shrinkingPrim [5, 7, 9] 1).getD k (-1) = -1 →
        ∀ j, initState.arena.length ≤ j →
          j < (run_dbscan_on_node shrinkingPrim [5, 7, 9] 1 0 initState).arena.length →
          ([5, 7, 9] : List ℕ).getD k 0 ∉
            pts (run_dbscan_on_node shrinkingPrim [5, 7, 9] 1 0 initState).arena j)) :=
  ⟨by decide, shrinkingPrim_contig, by decide,
    claim_C6_wrapper shrinkingPrim [5, 7, 9] 1 0 initState (by decide)
      shrinkingPrim_contig (by decide)⟩
